import Mathlib

/-!
Shallow embedding of `src/data/process_data.py`, the disaster-response ETL
pipeline (load two CSV tables, merge on `id`, decode the packed `categories`
column, fix the `related` value-2 anomaly, deduplicate, save).

Python strings are modelled as `List Char`, pandas DataFrames as `Table`
(a list of column labels plus a list of rows of cells), Python exceptions as
`PyErr`, and fallible operations return `Except PyErr`.  Filesystem reading
and writing is outside the model: the Loader is modelled from the point where
both CSV files have been parsed into tables, and the driver `main` is modelled
as the sequence of observable steps it performs.
-/

abbrev Chars := List Char

/-- A DataFrame cell: either a Python string or a Python int. -/
inductive Cell where
  | str : Chars → Cell
  | int : Int → Cell
deriving DecidableEq

/-- A pandas DataFrame: column labels plus rows of cells. -/
structure Table where
  cols : List Chars
  rows : List (List Cell)
deriving DecidableEq

/-- Rectangularity: every row has one cell per column (inherent to real
DataFrames, which are always rectangular). -/
def Table.WF (t : Table) : Prop := ∀ r ∈ t.rows, r.length = t.cols.length

/-- The Python exception classes that the script's operations can raise. -/
inductive PyErr where
  | keyError
  | indexError
  | valueError
  | attributeError
deriving DecidableEq

/-- The column label `"id"` (join key of `messages.merge(categories, on='id')`). -/
def idKey : Chars := "id".toList

/-- The column label `"categories"` (the packed category column). -/
def catKey : Chars := "categories".toList

/-- The column label `"related"` (the category with the value-2 anomaly). -/
def relatedKey : Chars := "related".toList

/-- Python `s.split(sep)` for a one-character separator: splits on every
occurrence of `sep`, keeping empty pieces (`"".split(sep) = ['']`,
`"a--b".split('-') = ['a','','b']`). -/
def splitOnChar (sep : Char) : Chars → List Chars
  | [] => [[]]
  | c :: cs =>
    match splitOnChar sep cs with
    | [] => [[]]
    | h :: t => if c = sep then [] :: h :: t else (c :: h) :: t

/-- Python `sep.join(parts)` for a one-character separator. -/
def joinSep (sep : Char) : List Chars → Chars
  | [] => []
  | [p] => p
  | p :: ps => p ++ sep :: joinSep sep ps

/-- Parse a run of decimal digits left to right, accumulating the value;
fails on any non-digit character. -/
def parseDigitsAux : Chars → Nat → Option Nat
  | [], acc => some acc
  | c :: cs, acc =>
    if c.isDigit then parseDigitsAux cs (acc * 10 + (c.toNat - 48)) else none

/-- Parse a nonempty all-digit string to a natural number. -/
def parseDigits : Chars → Option Nat
  | [] => none
  | c :: cs => parseDigitsAux (c :: cs) 0

/-- Strip leading and trailing whitespace (Python `str.strip`, as performed
implicitly by Python's `int(str)`). -/
def stripWS (cs : Chars) : Chars :=
  ((cs.dropWhile Char.isWhitespace).reverse.dropWhile Char.isWhitespace).reverse

/-- Python `int(s)` on a string: optional surrounding whitespace, an optional
single `+`/`-` sign, then one or more decimal digits; anything else raises
`ValueError` (modelled as `none`). -/
def pyInt (s : Chars) : Option Int :=
  match stripWS s with
  | [] => none
  | c :: rest =>
    if c = '-' then (parseDigits rest).map (fun n => -(n : Int))
    else if c = '+' then (parseDigits rest).map (fun n => (n : Int))
    else (parseDigits (c :: rest)).map (fun n => (n : Int))

/-- Python `str(v)` on an int: decimal digits, with a leading `-` when
negative. -/
def pyStrInt (v : Int) : Chars :=
  if v < 0 then '-' :: Nat.toDigits 10 v.natAbs else Nat.toDigits 10 v.toNat

/-- `mapM` specialised to `Except`, written by explicit recursion: apply `f`
to each element left to right, stopping at the first error. -/
def mapE {ε α β : Type} (f : α → Except ε β) : List α → Except ε (List β)
  | [] => .ok []
  | x :: xs =>
    match f x with
    | .error e => .error e
    | .ok y =>
      match mapE f xs with
      | .error e => .error e
      | .ok ys => .ok (y :: ys)

/-- First index of a column label in a table (`df['name']` lookup position). -/
def colIdx? (t : Table) (name : Chars) : Option Nat :=
  t.cols.findIdx? (fun c => c = name)

/-- `load_data`: `messages.merge(categories, on='id')` — an inner join on the
`id` column.  The result keeps every messages column (in order) followed by
every categories column except `id`; each messages row is paired with every
categories row carrying the same `id`, in order.  (Overlapping non-key column
names, which pandas would suffix with `_x`/`_y`, do not occur in this
pipeline's data and are not modelled.)  `none` models the merge failing when
either table lacks an `id` column. -/
def loadData (messages categories : Table) : Option Table :=
  match colIdx? messages idKey, colIdx? categories idKey with
  | some mi, some ci =>
    some { cols := messages.cols ++ categories.cols.eraseIdx ci,
           rows := messages.rows.flatMap (fun mr =>
             (categories.rows.filter (fun cr => cr[ci]? = mr[mi]?)).map
               (fun cr => mr ++ cr.eraseIdx ci)) }
  | _, _ => none

/-- `df['categories'].str.split(";", expand=True)`, one entry per row:
`some toks` for a string cell, `none` for a non-string cell (pandas `.str`
yields `NaN` there, which later raises `AttributeError` when `.split` is
applied to it). -/
def splitCell (c : Cell) : Option (List Chars) :=
  match c with
  | .str s => some (splitOnChar ';' s)
  | .int _ => none

/-- The packed-category token lists of all rows, in row order. -/
def rawTokens (df : Table) (catIdx : Nat) : List (Option (List Chars)) :=
  df.rows.map (fun r =>
    match r[catIdx]? with
    | some c => splitCell c
    | none => none)

/-- Number of expanded columns contributed by one row (a non-string cell
expands to a single `NaN` column). -/
def rowWidth : Option (List Chars) → Nat
  | some toks => toks.length
  | none => 1

/-- Width of the expanded categories frame: the maximum token count over all
rows (`expand=True` pads shorter rows with `None`). -/
def colWidth (tokss : List (Option (List Chars))) : Nat :=
  (tokss.map rowWidth).foldl max 0

/-- The name part of a token: `x.split('-')[0]`. -/
def tokenName (tok : Chars) : Chars := (splitOnChar '-' tok).headD []

/-- The value part of a token: `x.split('-')[1]`, the substring strictly
between the first and second `-`; `none` when the token has no `-`
(Python raises `IndexError` there). -/
def tokenValStr? (tok : Chars) : Option Chars := (splitOnChar '-' tok)[1]?

/-- Column `j` of the expanded categories frame: each row's `j`-th token, or
`none` where the row is too short (padded with `None`) or non-string (`NaN`). -/
def colEntries (tokss : List (Option (List Chars))) (j : Nat) : List (Option Chars) :=
  tokss.map (fun o =>
    match o with
    | some toks => toks[j]?
    | none => none)

/-- `x.split('-')[1]` on one entry of a column: a `None`/`NaN` entry raises
`AttributeError`, a token without `-` raises `IndexError`. -/
def splitOneTok (c : Option Chars) : Except PyErr Chars :=
  match c with
  | none => .error .attributeError
  | some tok =>
    match tokenValStr? tok with
    | some v => .ok v
    | none => .error .indexError

/-- The `apply(lambda x: x.split('-')[1])` pass over one column, row by row. -/
def applySplitCol (cellsj : List (Option Chars)) : Except PyErr (List Chars) :=
  mapE splitOneTok cellsj

/-- `int(v)` on one extracted value string: a non-numeric string raises
`ValueError`. -/
def intOneStr (v : Chars) : Except PyErr Int :=
  match pyInt v with
  | some z => .ok z
  | none => .error .valueError

/-- The `astype(int)` pass over one column, row by row. -/
def astypeIntCol (vs : List Chars) : Except PyErr (List Int) :=
  mapE intOneStr vs

/-- One iteration of `for column in categories:` at column position `j`.
If the column label at `j` is duplicated, `categories[column]` selects a
DataFrame and the `apply` raises `AttributeError`; otherwise the split pass
runs over all rows, then the int-conversion pass. -/
def processCol (tokss : List (Option (List Chars))) (names : List Chars)
    (j : Nat) : Except PyErr (List Int) :=
  if 2 ≤ names.countP (fun c => c = names.getD j []) then .error .attributeError
  else
    match applySplitCol (colEntries tokss j) with
    | .error e => .error e
    | .ok vs => astypeIntCol vs

/-- `categories['related'] = categories['related'].map(lambda x: 1 if x == 2
else x)`: rewrite 2 to 1 in every column labelled `related`. -/
def relatedFix (names : List Chars) (cols : List (List Int)) : List (List Int) :=
  (names.zip cols).map (fun p =>
    if p.1 = relatedKey then p.2.map (fun v => if v = 2 then 1 else v) else p.2)

/-- The category-decoding block of `clean_data` (everything before the
`df.drop`/`pd.concat`/`drop_duplicates` lines): split the packed column,
derive the column names from the first row, convert every column to int,
and apply the `related` 2-to-1 fix.  Returns the category column names (in
first-row token order) and the decoded columns (column-major). -/
def cleanDecode (df : Table) : Except PyErr (List Chars × List (List Int)) :=
  match colIdx? df catKey with
  | none => .error .keyError
  | some catIdx =>
    if 2 ≤ df.cols.countP (fun c => c = catKey) then .error .attributeError
    else
      match (rawTokens df catIdx).head? with
      | none => .error .indexError
      | some none => .error .attributeError
      | some (some t0) =>
        if t0.length < colWidth (rawTokens df catIdx) then .error .attributeError
        else
          match mapE (processCol (rawTokens df catIdx) (t0.map tokenName))
              (List.range (colWidth (rawTokens df catIdx))) with
          | .error e => .error e
          | .ok cols =>
            if relatedKey ∈ t0.map tokenName then
              .ok (t0.map tokenName, relatedFix (t0.map tokenName) cols)
            else .error .keyError

/-- `df.drop(name, axis=1)`: remove every column labelled `name`, and the
corresponding cell of every row. -/
def Table.dropCol (t : Table) (name : Chars) : Table :=
  { cols := t.cols.filter (fun c => c ≠ name),
    rows := t.rows.map (fun r =>
      ((t.cols.zip r).filter (fun p => p.1 ≠ name)).map Prod.snd) }

/-- Row `i` of the decoded category block, as cells. -/
def catValRows (cols : List (List Int)) (n : Nat) : List (List Cell) :=
  (List.range n).map (fun i => cols.map (fun col => Cell.int (col.getD i 0)))

/-- The rows of `pd.concat([df, categories], axis=1)` before deduplication:
each original row minus its packed cell, followed by its decoded category
cells. -/
def preDedupRows (df : Table) (cols : List (List Int)) : List (List Cell) :=
  ((df.dropCol catKey).rows.zip (catValRows cols df.rows.length)).map
    (fun p => p.1 ++ p.2)

/-- `drop_duplicates` (keep `first`, the pandas default), scanning rows in
order and keeping each row not seen before. -/
def dedupSeen {α : Type} [DecidableEq α] (seen : List α) : List α → List α
  | [] => []
  | x :: xs => if x ∈ seen then dedupSeen seen xs else x :: dedupSeen (x :: seen) xs

/-- `df.drop_duplicates()` on the list of rows. -/
def dedupFirst {α : Type} [DecidableEq α] (l : List α) : List α := dedupSeen [] l

/-- `clean_data`: decode the categories, drop the packed column, concatenate
the decoded columns on the right, and drop exact-duplicate rows. -/
def cleanData (df : Table) : Except PyErr Table :=
  match cleanDecode df with
  | .error e => .error e
  | .ok (names, cols) =>
    .ok { cols := (df.dropCol catKey).cols ++ names,
          rows := dedupFirst (preDedupRows df cols) }

/-- The state of the caller's DataFrame object after `clean_data(df)` returns
or raises.  The call executes `df.drop('categories', axis=1, inplace=True)`
after the whole decoding block succeeded and before any failure point, so on
success the caller's object has lost its packed column; on failure it is
untouched. -/
def dfAfterClean (df : Table) : Table :=
  match cleanData df with
  | .ok _ => df.dropCol catKey
  | .error _ => df

/-- The multiset of `id` cells of a table (empty when there is no `id`
column). -/
def Table.ids (t : Table) : List Cell :=
  match colIdx? t idKey with
  | some i => t.rows.filterMap (fun r => r[i]?)
  | none => []

/-- The cells of every column labelled `name`, row by row. -/
def Table.colCells (t : Table) (name : Chars) : List (List Cell) :=
  t.rows.map (fun r => ((t.cols.zip r).filter (fun p => p.1 = name)).map Prod.snd)

/-- The integer held by a cell (0 for a string cell; only applied to decoded
integer cells). -/
def cellInt : Cell → Int
  | .int v => v
  | .str _ => 0

/-- Re-pack one decoded row into the packed `name-value;...` string form. -/
def packToken (name : Chars) (v : Int) : Chars := name ++ '-' :: pyStrInt v

/-- Re-pack a whole decoded row. -/
def packRow (names : List Chars) (vs : List Int) : Chars :=
  joinSep ';' ((names.zip vs).map (fun p => packToken p.1 p.2))

/-- Re-pack a cleaned table whose last `ncat` columns are decoded category
columns: replace them by a single packed `categories` column. -/
def repackTable (t : Table) (ncat : Nat) : Table :=
  { cols := t.cols.take (t.cols.length - ncat) ++ [catKey],
    rows := t.rows.map (fun r =>
      r.take (t.cols.length - ncat) ++
        [Cell.str (packRow (t.cols.drop (t.cols.length - ncat))
          ((r.drop (t.cols.length - ncat)).map cellInt))]) }

/-- The observable steps of the driver `main`, in order. -/
inductive Step where
  | usageMessage
  | loadingMessage
  | readInputFiles
  | cleaningMessage
  | cleanTransform
  | savingMessage
  | writeDatabase
  | doneMessage
deriving DecidableEq

/-- `main`: with `len(sys.argv) == 4` (three positional arguments after the
program name) it prints the progress messages and runs load, clean, save in
order; otherwise it prints the usage message and returns.  `argv` includes
the program name, as `sys.argv` does. -/
def mainSteps (argv : List Chars) : List Step :=
  if argv.length = 4 then
    [Step.loadingMessage, Step.readInputFiles, Step.cleaningMessage,
     Step.cleanTransform, Step.savingMessage, Step.writeDatabase,
     Step.doneMessage]
  else
    [Step.usageMessage]

/-- The process exit code of `main`: the script never calls `sys.exit`, so
both branches return normally with exit code 0. -/
def mainExitCode (_argv : List Chars) : Nat := 0

/-! ### Lemmas about `mapE` -/

theorem mapE_ok_iff {ε α β : Type} (f : α → Except ε β) :
    ∀ (l : List α) (ys : List β),
      mapE f l = Except.ok ys ↔ List.Forall₂ (fun a b => f a = Except.ok b) l ys := by
  intro l
  induction l with
  | nil =>
    intro ys
    constructor
    · intro h
      simp only [mapE] at h
      cases h
      exact List.Forall₂.nil
    · intro h
      cases h
      rfl
  | cons x xs ih =>
    intro ys
    constructor
    · intro h
      unfold mapE at h
      cases hfx : f x with
      | error e => rw [hfx] at h; cases h
      | ok y =>
        rw [hfx] at h
        cases hm : mapE f xs with
        | error e => rw [hm] at h; cases h
        | ok ys' =>
          rw [hm] at h
          cases h
          exact List.Forall₂.cons hfx ((ih ys').mp hm)
    · intro h
      cases h with
      | cons hxy htail =>
        unfold mapE
        rw [hxy, (ih _).mpr htail]

theorem mapE_ok_length {ε α β : Type} {f : α → Except ε β} {l : List α}
    {ys : List β} (h : mapE f l = Except.ok ys) : ys.length = l.length :=
  (((mapE_ok_iff f l ys).mp h).length_eq).symm

theorem mapE_error_mem {ε α β : Type} {f : α → Except ε β} :
    ∀ {l : List α} {e : ε}, mapE f l = Except.error e → ∃ a ∈ l, f a = Except.error e := by
  intro l
  induction l with
  | nil => intro e h; simp only [mapE] at h; cases h
  | cons x xs ih =>
    intro e h
    unfold mapE at h
    cases hfx : f x with
    | error e' =>
      rw [hfx] at h
      cases h
      exact ⟨x, List.mem_cons_self x xs, hfx⟩
    | ok y =>
      rw [hfx] at h
      cases hm : mapE f xs with
      | error e' =>
        rw [hm] at h
        cases h
        obtain ⟨a, ha, hfa⟩ := ih hm
        exact ⟨a, List.mem_cons_of_mem x ha, hfa⟩
      | ok ys' => rw [hm] at h; cases h

theorem mapE_all_ok {ε α β : Type} {f : α → Except ε β} :
    ∀ {l : List α}, (∀ a ∈ l, ∃ b, f a = Except.ok b) →
      ∃ ys, mapE f l = Except.ok ys := by
  intro l
  induction l with
  | nil => intro _; exact ⟨[], rfl⟩
  | cons x xs ih =>
    intro h
    obtain ⟨y, hy⟩ := h x (List.mem_cons_self x xs)
    obtain ⟨ys, hys⟩ := ih (fun a ha => h a (List.mem_cons_of_mem x ha))
    refine ⟨y :: ys, ?_⟩
    unfold mapE
    rw [hy, hys]

theorem mapE_error_of_uniform {ε α β : Type} {f : α → Except ε β} {e : ε} :
    ∀ {l : List α}, (∀ a ∈ l, (∃ b, f a = Except.ok b) ∨ f a = Except.error e) →
      (∃ a ∈ l, f a = Except.error e) → mapE f l = Except.error e := by
  intro l
  induction l with
  | nil => intro _ h; obtain ⟨a, ha, _⟩ := h; cases ha
  | cons x xs ih =>
    intro hall hex
    unfold mapE
    rcases hall x (List.mem_cons_self x xs) with ⟨y, hy⟩ | hx
    · rw [hy]
      have hxs : ∃ a ∈ xs, f a = Except.error e := by
        obtain ⟨a, ha, hfa⟩ := hex
        rcases List.mem_cons.mp ha with rfl | ha'
        · rw [hy] at hfa; cases hfa
        · exact ⟨a, ha', hfa⟩
      rw [ih (fun a ha => hall a (List.mem_cons_of_mem x ha)) hxs]
    · rw [hx]

/-! ### Lemmas about `splitOnChar` and `joinSep` -/

theorem splitOnChar_ne_nil (sep : Char) (cs : Chars) : splitOnChar sep cs ≠ [] := by
  cases cs with
  | nil => simp [splitOnChar]
  | cons c cs' =>
    unfold splitOnChar
    cases h : splitOnChar sep cs' with
    | nil => simp
    | cons h' t => by_cases hc : c = sep <;> simp [hc]

theorem splitOnChar_cons_eq (sep c : Char) (cs : Chars) {h : Chars}
    {t : List Chars} (hs : splitOnChar sep cs = h :: t) :
    splitOnChar sep (c :: cs) = if c = sep then [] :: h :: t else (c :: h) :: t := by
  unfold splitOnChar
  rw [hs]

theorem mem_splitOnChar_subset {sep : Char} :
    ∀ {cs : Chars} {p : Chars}, p ∈ splitOnChar sep cs → ∀ c ∈ p, c ∈ cs := by
  intro cs
  induction cs with
  | nil =>
    intro p hp c hc
    simp [splitOnChar] at hp
    subst hp
    cases hc
  | cons x xs ih =>
    intro p hp c hc
    cases h : splitOnChar sep xs with
    | nil => exact absurd h (splitOnChar_ne_nil sep xs)
    | cons h' t =>
      rw [splitOnChar_cons_eq sep x xs h] at hp
      by_cases hx : x = sep
      · rw [if_pos hx] at hp
        rcases List.mem_cons.mp hp with rfl | hp'
        · cases hc
        · exact List.mem_cons_of_mem x (ih (h ▸ hp') c hc)
      · rw [if_neg hx] at hp
        rcases List.mem_cons.mp hp with rfl | hp'
        · rcases List.mem_cons.mp hc with rfl | hc'
          · exact List.mem_cons_self c xs
          · exact List.mem_cons_of_mem x (ih (h ▸ List.mem_cons_self h' t) c hc')
        · exact List.mem_cons_of_mem x (ih (h ▸ List.mem_cons_of_mem h' hp') c hc)

theorem sep_not_mem_of_mem_splitOnChar {sep : Char} :
    ∀ {cs : Chars} {p : Chars}, p ∈ splitOnChar sep cs → sep ∉ p := by
  intro cs
  induction cs with
  | nil =>
    intro p hp
    simp [splitOnChar] at hp
    subst hp
    simp
  | cons x xs ih =>
    intro p hp
    cases h : splitOnChar sep xs with
    | nil => exact absurd h (splitOnChar_ne_nil sep xs)
    | cons h' t =>
      rw [splitOnChar_cons_eq sep x xs h] at hp
      by_cases hx : x = sep
      · rw [if_pos hx] at hp
        rcases List.mem_cons.mp hp with rfl | hp'
        · simp
        · exact ih (h ▸ hp')
      · rw [if_neg hx] at hp
        rcases List.mem_cons.mp hp with rfl | hp'
        · intro hmem
          rcases List.mem_cons.mp hmem with rfl | hmem'
          · exact hx rfl
          · exact ih (h ▸ List.mem_cons_self h' t) hmem'
        · exact ih (h ▸ List.mem_cons_of_mem h' hp')

theorem splitOnChar_sepfree {sep : Char} :
    ∀ {p : Chars}, sep ∉ p → splitOnChar sep p = [p] := by
  intro p
  induction p with
  | nil => intro _; rfl
  | cons c cs ih =>
    intro h
    have hc : c ≠ sep := fun hc => h (hc ▸ List.mem_cons_self c cs)
    have hcs : sep ∉ cs := fun hm => h (List.mem_cons_of_mem c hm)
    rw [splitOnChar_cons_eq sep c cs (ih hcs), if_neg hc]

theorem splitOnChar_append_sep {sep : Char} :
    ∀ {p : Chars} (rest : Chars), sep ∉ p →
      splitOnChar sep (p ++ sep :: rest) = p :: splitOnChar sep rest := by
  intro p
  induction p with
  | nil =>
    intro rest _
    cases h : splitOnChar sep rest with
    | nil => exact absurd h (splitOnChar_ne_nil sep rest)
    | cons h' t =>
      rw [List.nil_append, splitOnChar_cons_eq sep sep rest h, if_pos rfl]
  | cons c cs ih =>
    intro rest h
    have hc : c ≠ sep := fun hc => h (hc ▸ List.mem_cons_self c cs)
    have hcs : sep ∉ cs := fun hm => h (List.mem_cons_of_mem c hm)
    have hrec := ih rest hcs
    rw [List.cons_append, splitOnChar_cons_eq sep c _ hrec, if_neg hc]

theorem splitOnChar_joinSep {sep : Char} :
    ∀ {ps : List Chars}, ps ≠ [] → (∀ p ∈ ps, sep ∉ p) →
      splitOnChar sep (joinSep sep ps) = ps := by
  intro ps
  induction ps with
  | nil => intro h _; exact absurd rfl h
  | cons p ps' ih =>
    intro _ hall
    cases ps' with
    | nil =>
      show splitOnChar sep p = [p]
      exact splitOnChar_sepfree (hall p (List.mem_cons_self p []))
    | cons q qs =>
      show splitOnChar sep (p ++ sep :: joinSep sep (q :: qs)) = p :: q :: qs
      rw [splitOnChar_append_sep _ (hall p (List.mem_cons_self p _)),
        ih (by simp) (fun r hr => hall r (List.mem_cons_of_mem p hr))]

/-! ### Lemmas about digit printing and `pyInt` -/

theorem toDigitsCore_succ (b fuel n : Nat) (ds : Chars) :
    Nat.toDigitsCore b (fuel + 1) n ds =
      if n / b = 0 then Nat.digitChar (n % b) :: ds
      else Nat.toDigitsCore b fuel (n / b) (Nat.digitChar (n % b) :: ds) := rfl

theorem digitChar_isDigit {n : Nat} (h : n < 10) : (Nat.digitChar n).isDigit = true := by
  interval_cases n <;> decide

theorem digitChar_toNat {n : Nat} (h : n < 10) : (Nat.digitChar n).toNat - 48 = n := by
  interval_cases n <;> decide

theorem toDigitsCore_all_digits :
    ∀ (fuel n : Nat) (ds : Chars), (∀ c ∈ ds, c.isDigit = true) →
      ∀ c ∈ Nat.toDigitsCore 10 fuel n ds, c.isDigit = true := by
  intro fuel
  induction fuel with
  | zero => intro n ds hds c hc; exact hds c hc
  | succ fuel ih =>
    intro n ds hds c hc
    rw [toDigitsCore_succ] at hc
    have hmod : n % 10 < 10 := Nat.mod_lt n (by norm_num)
    by_cases h0 : n / 10 = 0
    · rw [if_pos h0] at hc
      rcases List.mem_cons.mp hc with rfl | hc'
      · exact digitChar_isDigit hmod
      · exact hds c hc'
    · rw [if_neg h0] at hc
      refine ih (n / 10) _ ?_ c hc
      intro c' hc'
      rcases List.mem_cons.mp hc' with rfl | h'
      · exact digitChar_isDigit hmod
      · exact hds c' h'

theorem toDigitsCore_ne_nil :
    ∀ (fuel n : Nat) (ds : Chars), fuel ≠ 0 ∨ ds ≠ [] →
      Nat.toDigitsCore 10 fuel n ds ≠ [] := by
  intro fuel
  induction fuel with
  | zero =>
    intro n ds h
    rcases h with h | h
    · exact absurd rfl h
    · exact h
  | succ fuel ih =>
    intro n ds _
    rw [toDigitsCore_succ]
    by_cases h0 : n / 10 = 0
    · rw [if_pos h0]; exact List.cons_ne_nil _ _
    · rw [if_neg h0]
      exact ih (n / 10) _ (Or.inr (List.cons_ne_nil _ _))

theorem parseDigitsAux_cons_digit {c : Char} (h : c.isDigit = true)
    (cs : Chars) (a : Nat) :
    parseDigitsAux (c :: cs) a = parseDigitsAux cs (a * 10 + (c.toNat - 48)) := by
  have he : parseDigitsAux (c :: cs) a =
      if c.isDigit = true then parseDigitsAux cs (a * 10 + (c.toNat - 48))
      else none := rfl
  rw [he, if_pos h]

theorem parseDigitsAux_toDigitsCore :
    ∀ (fuel n : Nat) (ds : Chars) (a : Nat), n < fuel →
      ∃ k, parseDigitsAux (Nat.toDigitsCore 10 fuel n ds) a =
        parseDigitsAux ds (a * 10 ^ k + n) := by
  intro fuel
  induction fuel with
  | zero => intro n ds a h; exact absurd h (Nat.not_lt_zero n)
  | succ fuel ih =>
    intro n ds a h
    rw [toDigitsCore_succ]
    have hmod : n % 10 < 10 := Nat.mod_lt n (by norm_num)
    by_cases h0 : n / 10 = 0
    · rw [if_pos h0]
      refine ⟨1, ?_⟩
      have hn : n < 10 := by omega
      rw [parseDigitsAux_cons_digit (digitChar_isDigit hmod),
        digitChar_toNat hmod]
      congr 1
      rw [pow_one, Nat.mod_eq_of_lt hn]
    · rw [if_neg h0]
      have hlt : n / 10 < fuel := by omega
      obtain ⟨k, hk⟩ := ih (n / 10) (Nat.digitChar (n % 10) :: ds) a hlt
      refine ⟨k + 1, ?_⟩
      rw [hk, parseDigitsAux_cons_digit (digitChar_isDigit hmod),
        digitChar_toNat hmod]
      congr 1
      have hdm : 10 * (n / 10) + n % 10 = n := Nat.div_add_mod n 10
      calc (a * 10 ^ k + n / 10) * 10 + n % 10
          = a * (10 ^ k * 10) + (10 * (n / 10) + n % 10) := by ring
        _ = a * 10 ^ (k + 1) + n := by rw [hdm, pow_succ]

theorem toDigits_ne_nil (n : Nat) : Nat.toDigits 10 n ≠ [] :=
  toDigitsCore_ne_nil (n + 1) n [] (Or.inl (Nat.succ_ne_zero n))

theorem toDigits_all_digits (n : Nat) :
    ∀ c ∈ Nat.toDigits 10 n, c.isDigit = true :=
  toDigitsCore_all_digits (n + 1) n [] (by intro c hc; cases hc)

theorem parseDigits_toDigits (n : Nat) :
    parseDigits (Nat.toDigits 10 n) = some n := by
  obtain ⟨k, hk⟩ := parseDigitsAux_toDigitsCore (n + 1) n [] 0 (Nat.lt_succ_self n)
  cases hd : Nat.toDigits 10 n with
  | nil => exact absurd hd (toDigits_ne_nil n)
  | cons c cs =>
    have hk' : parseDigitsAux (c :: cs) 0 = parseDigitsAux [] (0 * 10 ^ k + n) := by
      rw [← hd]
      exact hk
    have he : parseDigits (c :: cs) = parseDigitsAux (c :: cs) 0 := rfl
    rw [he, hk']
    simp [parseDigitsAux]

theorem not_whitespace_of_isDigit {c : Char} (h : c.isDigit = true) :
    c.isWhitespace = false := by
  by_contra hw
  have hw' : c.isWhitespace = true := by
    cases hb : c.isWhitespace
    · exact absurd hb hw
    · rfl
  have h4 := hw'
  simp only [Char.isWhitespace, Bool.or_eq_true, decide_eq_true_eq] at h4
  rcases h4 with ((rfl | rfl) | rfl) | rfl <;> exact absurd h (by decide)

theorem ne_dash_of_isDigit {c : Char} (h : c.isDigit = true) : c ≠ '-' := by
  intro he
  subst he
  exact absurd h (by decide)

theorem ne_plus_of_isDigit {c : Char} (h : c.isDigit = true) : c ≠ '+' := by
  intro he
  subst he
  exact absurd h (by decide)

theorem ne_semi_of_isDigit {c : Char} (h : c.isDigit = true) : c ≠ ';' := by
  intro he
  subst he
  exact absurd h (by decide)

theorem dropWhile_eq_self_of_all {α : Type} {p : α → Bool} :
    ∀ {l : List α}, (∀ c ∈ l, p c = false) → l.dropWhile p = l := by
  intro l
  cases l with
  | nil => intro _; rfl
  | cons x xs =>
    intro h
    rw [List.dropWhile_cons]
    simp [h x (List.mem_cons_self x xs)]

theorem stripWS_eq_self {cs : Chars} (h : ∀ c ∈ cs, c.isWhitespace = false) :
    stripWS cs = cs := by
  unfold stripWS
  rw [dropWhile_eq_self_of_all h,
    dropWhile_eq_self_of_all (fun c hc => h c (List.mem_reverse.mp hc)),
    List.reverse_reverse]

theorem mem_stripWS {cs : Chars} {c : Char} (h : c ∈ stripWS cs) : c ∈ cs := by
  unfold stripWS at h
  have h1 := List.mem_reverse.mp h
  have h2 := (List.dropWhile_sublist _).subset h1
  have h3 := List.mem_reverse.mp h2
  exact (List.dropWhile_sublist _).subset h3

theorem pyInt_eq_none_of_strip_nil {s : Chars} (h : stripWS s = []) :
    pyInt s = none := by
  unfold pyInt
  rw [h]

theorem pyInt_eq_of_strip {s : Chars} {c : Char} {rest : Chars}
    (h : stripWS s = c :: rest) :
    pyInt s =
      (if c = '-' then (parseDigits rest).map (fun m => -(m : Int))
       else if c = '+' then (parseDigits rest).map (fun m => (m : Int))
       else (parseDigits (c :: rest)).map (fun m => (m : Int))) := by
  unfold pyInt
  rw [h]

theorem pyInt_toDigits (n : Nat) :
    pyInt (Nat.toDigits 10 n) = some (n : Int) := by
  have hall := toDigits_all_digits n
  have hs : stripWS (Nat.toDigits 10 n) = Nat.toDigits 10 n :=
    stripWS_eq_self (fun c hc => not_whitespace_of_isDigit (hall c hc))
  cases hd : Nat.toDigits 10 n with
  | nil => exact absurd hd (toDigits_ne_nil n)
  | cons c cs =>
    rw [hd] at hs
    have hcd : c.isDigit = true := hall c (by rw [hd]; exact List.mem_cons_self c cs)
    have hp : parseDigits (c :: cs) = some n := by
      rw [← hd]
      exact parseDigits_toDigits n
    rw [pyInt_eq_of_strip hs, if_neg (ne_dash_of_isDigit hcd),
      if_neg (ne_plus_of_isDigit hcd), hp]
    rfl

theorem pyStrInt_of_nonneg {v : Int} (h : 0 ≤ v) :
    pyStrInt v = Nat.toDigits 10 v.toNat := by
  unfold pyStrInt
  rw [if_neg (not_lt.mpr h)]

theorem pyInt_pyStrInt {v : Int} (h : 0 ≤ v) : pyInt (pyStrInt v) = some v := by
  rw [pyStrInt_of_nonneg h, pyInt_toDigits, Int.toNat_of_nonneg h]

theorem pyStrInt_all_digits {v : Int} (h : 0 ≤ v) :
    ∀ c ∈ pyStrInt v, c.isDigit = true := by
  rw [pyStrInt_of_nonneg h]
  exact toDigits_all_digits v.toNat

theorem pyInt_nonneg_of_no_dash {s : Chars} (hnd : ('-' : Char) ∉ s) {v : Int}
    (h : pyInt s = some v) : 0 ≤ v := by
  cases hs : stripWS s with
  | nil => rw [pyInt_eq_none_of_strip_nil hs] at h; cases h
  | cons c rest =>
    rw [pyInt_eq_of_strip hs] at h
    have hcmem : c ∈ s := mem_stripWS (by rw [hs]; exact List.mem_cons_self c rest)
    have hc : c ≠ '-' := fun he => hnd (he ▸ hcmem)
    rw [if_neg hc] at h
    by_cases hp : c = '+'
    · rw [if_pos hp] at h
      cases hpd : parseDigits rest with
      | none => rw [hpd] at h; cases h
      | some m =>
        rw [hpd] at h
        have : v = (m : Int) := by
          simpa using h.symm
        rw [this]
        exact Int.natCast_nonneg m
    · rw [if_neg hp] at h
      cases hpd : parseDigits (c :: rest) with
      | none => rw [hpd] at h; cases h
      | some m =>
        rw [hpd] at h
        have : v = (m : Int) := by
          simpa using h.symm
        rw [this]
        exact Int.natCast_nonneg m

/-! ### Lemmas about `dedupSeen` / `dedupFirst` -/

theorem dedupSeen_cons {α : Type} [DecidableEq α] (seen : List α) (x : α)
    (xs : List α) :
    dedupSeen seen (x :: xs) =
      if x ∈ seen then dedupSeen seen xs else x :: dedupSeen (x :: seen) xs := rfl

theorem dedupSeen_sublist {α : Type} [DecidableEq α] :
    ∀ (l seen : List α), (dedupSeen seen l).Sublist l := by
  intro l
  induction l with
  | nil => intro seen; exact List.Sublist.refl []
  | cons x xs ih =>
    intro seen
    rw [dedupSeen_cons]
    by_cases hx : x ∈ seen
    · rw [if_pos hx]
      exact (ih seen).cons x
    · rw [if_neg hx]
      exact (ih (x :: seen)).cons₂ x

theorem mem_dedupSeen {α : Type} [DecidableEq α] :
    ∀ {l seen : List α} {a : α}, a ∈ dedupSeen seen l ↔ a ∈ l ∧ a ∉ seen := by
  intro l
  induction l with
  | nil => intro seen a; simp [dedupSeen]
  | cons x xs ih =>
    intro seen a
    rw [dedupSeen_cons]
    by_cases hx : x ∈ seen
    · rw [if_pos hx, ih]
      constructor
      · rintro ⟨ha, hns⟩
        exact ⟨List.mem_cons_of_mem x ha, hns⟩
      · rintro ⟨ha, hns⟩
        rcases List.mem_cons.mp ha with rfl | ha'
        · exact absurd hx hns
        · exact ⟨ha', hns⟩
    · rw [if_neg hx]
      constructor
      · intro h
        rcases List.mem_cons.mp h with rfl | h'
        · exact ⟨List.mem_cons_self a xs, hx⟩
        · obtain ⟨ha, hns⟩ := ih.mp h'
          exact ⟨List.mem_cons_of_mem x ha,
            fun hs => hns (List.mem_cons_of_mem x hs)⟩
      · rintro ⟨ha, hns⟩
        rcases List.mem_cons.mp ha with rfl | ha'
        · exact List.mem_cons_self a _
        · by_cases hax : a = x
          · subst hax
            exact List.mem_cons_self a _
          · refine List.mem_cons_of_mem x (ih.mpr ⟨ha', ?_⟩)
            intro hs
            rcases List.mem_cons.mp hs with h1 | h2
            · exact hax h1
            · exact hns h2

theorem dedupSeen_nodup {α : Type} [DecidableEq α] :
    ∀ (l seen : List α), (dedupSeen seen l).Nodup := by
  intro l
  induction l with
  | nil => intro seen; simp [dedupSeen]
  | cons x xs ih =>
    intro seen
    rw [dedupSeen_cons]
    by_cases hx : x ∈ seen
    · rw [if_pos hx]
      exact ih seen
    · rw [if_neg hx]
      refine List.Nodup.cons ?_ (ih (x :: seen))
      intro hmem
      exact (mem_dedupSeen.mp hmem).2 (List.mem_cons_self x seen)

theorem dedupSeen_congr {α : Type} [DecidableEq α] :
    ∀ (l s₁ s₂ : List α), (∀ a, a ∈ s₁ ↔ a ∈ s₂) →
      dedupSeen s₁ l = dedupSeen s₂ l := by
  intro l
  induction l with
  | nil => intro s₁ s₂ _; rfl
  | cons x xs ih =>
    intro s₁ s₂ h
    rw [dedupSeen_cons, dedupSeen_cons]
    by_cases hx : x ∈ s₁
    · rw [if_pos hx, if_pos ((h x).mp hx)]
      exact ih s₁ s₂ h
    · rw [if_neg hx, if_neg (fun h2 => hx ((h x).mpr h2))]
      refine congrArg (List.cons x) (ih (x :: s₁) (x :: s₂) ?_)
      intro a
      simp [h a]

theorem dedupSeen_eq_self {α : Type} [DecidableEq α] :
    ∀ (l seen : List α), l.Nodup → (∀ a ∈ l, a ∉ seen) → dedupSeen seen l = l := by
  intro l
  induction l with
  | nil => intro seen _ _; rfl
  | cons x xs ih =>
    intro seen hnd hout
    rw [dedupSeen_cons, if_neg (hout x (List.mem_cons_self x xs))]
    refine congrArg (List.cons x) (ih (x :: seen) (List.Nodup.of_cons hnd) ?_)
    intro a ha hs
    rcases List.mem_cons.mp hs with rfl | h2
    · exact (List.nodup_cons.mp hnd).1 ha
    · exact hout a (List.mem_cons_of_mem x ha) h2

theorem dedupFirst_nodup {α : Type} [DecidableEq α] (l : List α) :
    (dedupFirst l).Nodup := dedupSeen_nodup l []

theorem dedupFirst_sublist {α : Type} [DecidableEq α] (l : List α) :
    (dedupFirst l).Sublist l := dedupSeen_sublist l []

theorem mem_dedupFirst {α : Type} [DecidableEq α] {l : List α} {a : α} :
    a ∈ dedupFirst l ↔ a ∈ l := by
  unfold dedupFirst
  rw [mem_dedupSeen]
  simp

theorem dedupFirst_eq_self_of_nodup {α : Type} [DecidableEq α] {l : List α}
    (h : l.Nodup) : dedupFirst l = l :=
  dedupSeen_eq_self l [] h (by simp)

/-- The "keep the first occurrence, preserve the original order" description
of deduplication, written as a left-to-right scan that appends each row not
seen so far (this is the specification-side definition, to be compared with
`dedupFirst`, which is translated from the code's `drop_duplicates`). -/
def specStep {α : Type} [DecidableEq α] (acc : List α) (x : α) : List α :=
  if x ∈ acc then acc else acc ++ [x]

/-- Specification-side deduplication: fold `specStep` over the rows. -/
def specKeepFirst {α : Type} [DecidableEq α] (l : List α) : List α :=
  l.foldl specStep []

theorem foldl_specStep_dedupSeen {α : Type} [DecidableEq α] :
    ∀ (l acc : List α), List.foldl specStep acc l = acc ++ dedupSeen acc l := by
  intro l
  induction l with
  | nil => intro acc; simp [dedupSeen]
  | cons x xs ih =>
    intro acc
    rw [List.foldl_cons]
    by_cases hx : x ∈ acc
    · have hstep : specStep acc x = acc := by unfold specStep; rw [if_pos hx]
      rw [hstep, ih acc, dedupSeen_cons, if_pos hx]
    · have hstep : specStep acc x = acc ++ [x] := by unfold specStep; rw [if_neg hx]
      rw [hstep, ih (acc ++ [x]), dedupSeen_cons, if_neg hx,
        dedupSeen_congr xs (acc ++ [x]) (x :: acc) (by intro a; simp [or_comm])]
      simp

theorem specKeepFirst_eq_dedupFirst {α : Type} [DecidableEq α] (l : List α) :
    specKeepFirst l = dedupFirst l := by
  unfold specKeepFirst dedupFirst
  rw [foldl_specStep_dedupSeen l []]
  simp

/-! ### Forall₂ helper lemmas -/

theorem forall₂_comp_iff {α β γ : Type} {R : α → β → Prop} {S : β → γ → Prop} :
    ∀ {a : List α} {c : List γ},
      (∃ b, List.Forall₂ R a b ∧ List.Forall₂ S b c) ↔
        List.Forall₂ (fun x z => ∃ y, R x y ∧ S y z) a c := by
  intro a
  induction a with
  | nil =>
    intro c
    constructor
    · rintro ⟨b, h1, h2⟩
      cases h1
      cases h2
      exact List.Forall₂.nil
    · intro h
      cases h
      exact ⟨[], List.Forall₂.nil, List.Forall₂.nil⟩
  | cons x xs ih =>
    intro c
    constructor
    · rintro ⟨b, h1, h2⟩
      cases h1 with
      | cons hxy h1' =>
        cases h2 with
        | cons hyz h2' =>
          exact List.Forall₂.cons ⟨_, hxy, hyz⟩ (ih.mp ⟨_, h1', h2'⟩)
    · intro h
      cases h with
      | cons hx h' =>
        obtain ⟨y, hxy, hyz⟩ := hx
        obtain ⟨b, h1, h2⟩ := ih.mpr h'
        exact ⟨y :: b, List.Forall₂.cons hxy h1, List.Forall₂.cons hyz h2⟩

theorem forall₂_getElem?_left {α β : Type} {R : α → β → Prop} {l₁ : List α}
    {l₂ : List β} (h : List.Forall₂ R l₁ l₂) :
    ∀ {i : Nat} {a : α}, l₁[i]? = some a → ∃ b, l₂[i]? = some b ∧ R a b := by
  induction h with
  | nil => intro i a ha; simp at ha
  | cons hR htail ihh =>
    intro i a ha
    cases i with
    | zero =>
      rw [List.getElem?_cons_zero] at ha
      cases ha
      exact ⟨_, List.getElem?_cons_zero, hR⟩
    | succ n =>
      rw [List.getElem?_cons_succ] at ha
      obtain ⟨b, hb, hR'⟩ := ihh ha
      refine ⟨b, ?_, hR'⟩
      rw [List.getElem?_cons_succ]
      exact hb

theorem forall₂_of_getElem? {α β : Type} {R : α → β → Prop} :
    ∀ {l₁ : List α} {l₂ : List β}, l₁.length = l₂.length →
      (∀ (i : Nat) (a : α) (b : β), l₁[i]? = some a → l₂[i]? = some b → R a b) →
      List.Forall₂ R l₁ l₂ := by
  intro l₁
  induction l₁ with
  | nil =>
    intro l₂ hlen _
    cases l₂ with
    | nil => exact List.Forall₂.nil
    | cons y ys => cases hlen
  | cons x xs ih =>
    intro l₂ hlen h
    cases l₂ with
    | nil => cases hlen
    | cons y ys =>
      refine List.Forall₂.cons (h 0 x y List.getElem?_cons_zero List.getElem?_cons_zero) ?_
      refine ih (by simpa using hlen) ?_
      intro i a b ha hb
      refine h (i + 1) a b ?_ ?_
      · rw [List.getElem?_cons_succ]; exact ha
      · rw [List.getElem?_cons_succ]; exact hb

/-! ### Lemmas about `foldl max` -/

theorem init_le_foldl_max : ∀ (l : List Nat) (a : Nat), a ≤ l.foldl max a := by
  intro l
  induction l with
  | nil => intro a; exact Nat.le_refl a
  | cons y ys ih =>
    intro a
    rw [List.foldl_cons]
    exact le_trans (le_max_left a y) (ih (max a y))

theorem le_foldl_max : ∀ (l : List Nat) (a x : Nat), x ∈ l → x ≤ l.foldl max a := by
  intro l
  induction l with
  | nil => intro a x hx; cases hx
  | cons y ys ih =>
    intro a x hx
    rw [List.foldl_cons]
    rcases List.mem_cons.mp hx with rfl | hx'
    · exact le_trans (le_max_right a x) (init_le_foldl_max ys (max a x))
    · exact ih (max a y) x hx'

theorem foldl_max_const :
    ∀ (l : List Nat) (w a : Nat), (∀ x ∈ l, x = w) → l ≠ [] →
      l.foldl max a = max a w := by
  intro l
  induction l with
  | nil => intro w a _ h; exact absurd rfl h
  | cons x xs ih =>
    intro w a hall _
    have hx : x = w := hall x (List.mem_cons_self x xs)
    subst hx
    rw [List.foldl_cons]
    by_cases hempty : xs = []
    · subst hempty
      rfl
    · rw [ih x (max a x) (fun z hz => hall z (List.mem_cons_of_mem _ hz)) hempty,
        max_assoc, max_self]

/-! ### Characterisations of the column passes and `cleanDecode` -/

theorem splitOneTok_ok_iff {o : Option Chars} {vs : Chars} :
    splitOneTok o = Except.ok vs ↔ ∃ tok, o = some tok ∧ tokenValStr? tok = some vs := by
  cases o with
  | none => simp [splitOneTok]
  | some tok =>
    unfold splitOneTok
    cases ht : tokenValStr? tok with
    | none => simp [ht]
    | some v => simp [ht, eq_comm]

theorem splitOneTok_error_iff {o : Option Chars} {e : PyErr} :
    splitOneTok o = Except.error e ↔
      (o = none ∧ e = PyErr.attributeError) ∨
      (∃ tok, o = some tok ∧ tokenValStr? tok = none ∧ e = PyErr.indexError) := by
  cases o with
  | none => simp [splitOneTok, eq_comm]
  | some tok =>
    unfold splitOneTok
    cases ht : tokenValStr? tok with
    | none => simp [ht, eq_comm]
    | some v => simp [ht]

theorem intOneStr_ok_iff {v : Chars} {z : Int} :
    intOneStr v = Except.ok z ↔ pyInt v = some z := by
  unfold intOneStr
  cases hp : pyInt v with
  | none => simp
  | some z' => simp [eq_comm]

theorem intOneStr_error_iff {v : Chars} {e : PyErr} :
    intOneStr v = Except.error e ↔ pyInt v = none ∧ e = PyErr.valueError := by
  unfold intOneStr
  cases hp : pyInt v with
  | none => simp [eq_comm]
  | some z => simp

/-- The relation between one column entry and its decoded integer value. -/
def decodesTo (o : Option Chars) (v : Int) : Prop :=
  ∃ tok vs, o = some tok ∧ tokenValStr? tok = some vs ∧ pyInt vs = some v

theorem processCol_ok_iff {tokss : List (Option (List Chars))} {names : List Chars}
    {j : Nat} {vals : List Int} :
    processCol tokss names j = Except.ok vals ↔
      names.countP (fun c => c = names.getD j []) < 2 ∧
      List.Forall₂ decodesTo (colEntries tokss j) vals := by
  unfold processCol
  by_cases hdup : 2 ≤ names.countP (fun c => c = names.getD j [])
  · rw [if_pos hdup]
    constructor
    · intro h; cases h
    · rintro ⟨h1, _⟩; omega
  · rw [if_neg hdup]
    constructor
    · intro h
      cases ha : applySplitCol (colEntries tokss j) with
      | error e => rw [ha] at h; cases h
      | ok vstrs =>
        rw [ha] at h
        refine ⟨by omega, ?_⟩
        have h1 := (mapE_ok_iff splitOneTok _ _).mp ha
        have h2 := (mapE_ok_iff intOneStr _ _).mp h
        have h3 := forall₂_comp_iff.mp ⟨vstrs, h1, h2⟩
        refine List.Forall₂.imp ?_ h3
        intro o v hv
        obtain ⟨vs, hsplit, hint⟩ := hv
        obtain ⟨tok, ho, htv⟩ := splitOneTok_ok_iff.mp hsplit
        exact ⟨tok, vs, ho, htv, intOneStr_ok_iff.mp hint⟩
    · rintro ⟨_, h⟩
      have h3 : List.Forall₂
          (fun o v => ∃ vs, splitOneTok o = Except.ok vs ∧ intOneStr vs = Except.ok v)
          (colEntries tokss j) vals := by
        refine List.Forall₂.imp ?_ h
        intro o v hv
        obtain ⟨tok, vs, ho, htv, hpi⟩ := hv
        exact ⟨vs, splitOneTok_ok_iff.mpr ⟨tok, ho, htv⟩, intOneStr_ok_iff.mpr hpi⟩
      obtain ⟨vstrs, h1, h2⟩ := forall₂_comp_iff.mpr h3
      have ha : applySplitCol (colEntries tokss j) = Except.ok vstrs :=
        (mapE_ok_iff splitOneTok _ _).mpr h1
      rw [ha]
      exact (mapE_ok_iff intOneStr _ _).mpr h2

theorem cleanDecode_ok_elim {df : Table} {names : List Chars} {cols : List (List Int)}
    (h : cleanDecode df = Except.ok (names, cols)) :
    ∃ catIdx t0 rawCols,
      colIdx? df catKey = some catIdx ∧
      df.cols.countP (fun c => c = catKey) < 2 ∧
      (rawTokens df catIdx).head? = some (some t0) ∧
      colWidth (rawTokens df catIdx) = t0.length ∧
      names = t0.map tokenName ∧
      mapE (processCol (rawTokens df catIdx) names) (List.range t0.length) =
        Except.ok rawCols ∧
      cols = relatedFix names rawCols ∧
      relatedKey ∈ names := by
  unfold cleanDecode at h
  split at h
  · cases h
  next catIdx hci =>
    split at h
    · cases h
    next hcount =>
      split at h
      · cases h
      · cases h
      next t0 hh =>
        split at h
        · cases h
        next hlt =>
          split at h
          · cases h
          next rawCols hm =>
            split at h
            next hrel =>
              injection h with hpair
              injection hpair with hn hc
              subst hn
              subst hc
              have hwidth : colWidth (rawTokens df catIdx) = t0.length := by
                have hmem0 : some t0 ∈ rawTokens df catIdx := List.mem_of_mem_head? hh
                have hmem : rowWidth (some t0) ∈ (rawTokens df catIdx).map rowWidth :=
                  List.mem_map_of_mem rowWidth hmem0
                have hle := le_foldl_max ((rawTokens df catIdx).map rowWidth) 0 _ hmem
                have hr : rowWidth (some t0) = t0.length := rfl
                rw [hr] at hle
                unfold colWidth at hlt ⊢
                omega
              rw [hwidth] at hm
              exact ⟨catIdx, t0, rawCols, hci, by omega, hh, hwidth, rfl, hm, rfl, hrel⟩
            next hrel => cases h

theorem cleanDecode_ok_intro {df : Table} {catIdx : Nat} {t0 : List Chars}
    {rawCols : List (List Int)}
    (hci : colIdx? df catKey = some catIdx)
    (hcount : df.cols.countP (fun c => c = catKey) < 2)
    (hh : (rawTokens df catIdx).head? = some (some t0))
    (hw : colWidth (rawTokens df catIdx) = t0.length)
    (hm : mapE (processCol (rawTokens df catIdx) (t0.map tokenName))
        (List.range t0.length) = Except.ok rawCols)
    (hrel : relatedKey ∈ t0.map tokenName) :
    cleanDecode df =
      Except.ok (t0.map tokenName, relatedFix (t0.map tokenName) rawCols) := by
  unfold cleanDecode
  simp only [hci]
  rw [if_neg (by omega : ¬ 2 ≤ df.cols.countP (fun c => c = catKey))]
  simp only [hh]
  rw [hw, if_neg (lt_irrefl t0.length)]
  simp only [hm]
  rw [if_pos hrel]

/-! ### Concrete tables used by the claim theorems -/

deriving instance DecidableEq for Except

/-- Messages table of the two-row scenario (C2). -/
def c2Messages : Table :=
  { cols := ["id".toList, "text".toList],
    rows := [[Cell.int 1, Cell.str "help".toList],
             [Cell.int 2, Cell.str "food".toList]] }

/-- Categories table of the two-row scenario (C2). -/
def c2Categories : Table :=
  { cols := ["id".toList, "categories".toList],
    rows := [[Cell.int 1, Cell.str "related-1;request-0".toList],
             [Cell.int 2, Cell.str "related-2;request-1".toList]] }

/-- The merged table the Loader must produce in the C2 scenario. -/
def c2Merged : Table :=
  { cols := ["id".toList, "text".toList, "categories".toList],
    rows := [[Cell.int 1, Cell.str "help".toList,
              Cell.str "related-1;request-0".toList],
             [Cell.int 2, Cell.str "food".toList,
              Cell.str "related-2;request-1".toList]] }

/-- The cleaned table the Transformer must produce in the C2 scenario. -/
def c2Cleaned : Table :=
  { cols := ["id".toList, "text".toList, "related".toList, "request".toList],
    rows := [[Cell.int 1, Cell.str "help".toList, Cell.int 1, Cell.int 0],
             [Cell.int 2, Cell.str "food".toList, Cell.int 1, Cell.int 1]] }

/-- A one-row merged table whose `request` category carries the value 5. -/
def c1Df : Table :=
  { cols := ["id".toList, "categories".toList],
    rows := [[Cell.int 1, Cell.str "related-1;request-5".toList]] }

/-- The cleaned output for `c1Df`: the 5 passes through unchanged. -/
def c1Out : Table :=
  { cols := ["id".toList, "related".toList, "request".toList],
    rows := [[Cell.int 1, Cell.int 1, Cell.int 5]] }

/-- A messages table in which the identifier 1 appears twice. -/
def c4Messages : Table :=
  { cols := ["id".toList, "text".toList],
    rows := [[Cell.int 1, Cell.str "a".toList],
             [Cell.int 1, Cell.str "b".toList]] }

/-- A categories table with the single identifier 1. -/
def c4Categories : Table :=
  { cols := ["id".toList, "categories".toList],
    rows := [[Cell.int 1, Cell.str "related-1".toList]] }

/-- A well-formed merged table accepted by the Transformer. -/
def c5Df : Table :=
  { cols := ["id".toList, "categories".toList],
    rows := [[Cell.int 2, Cell.str "related-0;request-1".toList]] }

/-- A merged table whose packed token has no `-` separator. -/
def c6Df : Table :=
  { cols := ["id".toList, "categories".toList],
    rows := [[Cell.int 1, Cell.str "related".toList]] }

/-- A merged table whose packed token is `name--1` (a negative value written
with a second dash). -/
def c10Df : Table :=
  { cols := ["id".toList, "categories".toList],
    rows := [[Cell.int 1, Cell.str "name--1".toList]] }

/-! ### Claim theorems (first batch) -/

/-- C2: on the concrete two-row input (messages id=1 "help", id=2 "food";
categories id=1 "related-1;request-0", id=2 "related-2;request-1"), the Loader
produces exactly the merged table, and the Transformer produces exactly two
rows with columns [id, text, related, request], row 1 = (1,"help",1,0) and
row 2 = (2,"food",1,1); the anomaly fix rewrites the value 2 of category
`related` to 1 and leaves all other values unchanged. -/
theorem c2_scenario :
    loadData c2Messages c2Categories = some c2Merged ∧
    cleanData c2Merged = Except.ok c2Cleaned := by
  constructor
  · decide
  · decide

/-- C8: when the argument count differs from 3 positional arguments
(`len(sys.argv) ≠ 4`), the driver performs exactly one step — printing the
usage message — so no file is read, no transform runs, no database is
written, and the exit code is 0; with exactly 3 positional arguments it
prints the progress messages and runs load, clean, save in that order. -/
theorem c8_cli_arguments (argv : List Chars) :
    (argv.length ≠ 4 →
      mainSteps argv = [Step.usageMessage] ∧
      Step.readInputFiles ∉ mainSteps argv ∧
      Step.cleanTransform ∉ mainSteps argv ∧
      Step.writeDatabase ∉ mainSteps argv ∧
      mainExitCode argv = 0) ∧
    (argv.length = 4 →
      mainSteps argv =
        [Step.loadingMessage, Step.readInputFiles, Step.cleaningMessage,
         Step.cleanTransform, Step.savingMessage, Step.writeDatabase,
         Step.doneMessage]) := by
  constructor
  · intro h
    refine ⟨?_, ?_, ?_, ?_, rfl⟩ <;> simp [mainSteps, h]
  · intro h
    simp [mainSteps, h]

/-- Witness for C8 at a two-element and a four-element argument vector. -/
theorem c8_cli_arguments_witness :
    mainSteps ["p".toList, "a".toList] = [Step.usageMessage] ∧
    mainSteps ["p".toList, "a".toList, "b".toList, "c".toList] =
      [Step.loadingMessage, Step.readInputFiles, Step.cleaningMessage,
       Step.cleanTransform, Step.savingMessage, Step.writeDatabase,
       Step.doneMessage] :=
  ⟨((c8_cli_arguments ["p".toList, "a".toList]).1 (by decide)).1,
   (c8_cli_arguments ["p".toList, "a".toList, "b".toList, "c".toList]).2 (by decide)⟩

/-- C9: on a merged table with zero rows, `clean_data` fails (selecting the
first row to derive the category names has no row to read), so a nonempty
input is a precondition for success. -/
theorem c9_empty_input_fails (df : Table) (h : df.rows = []) :
    (cleanData df).isOk = false := by
  unfold cleanData
  cases hd : cleanDecode df with
  | error e => rfl
  | ok p =>
    obtain ⟨names, cols⟩ := p
    obtain ⟨catIdx, t0, rawCols, hci, hcount, hh, hrest⟩ := cleanDecode_ok_elim hd
    unfold rawTokens at hh
    rw [h] at hh
    simp at hh

/-- Witness for C9 at a concrete empty table that has a `categories` column. -/
theorem c9_empty_input_fails_witness :
    (cleanData { cols := ["id".toList, "categories".toList], rows := [] }).isOk
      = false :=
  c9_empty_input_fails { cols := ["id".toList, "categories".toList], rows := [] } rfl

/-- C10: the Transformer parses as the value of a token exactly the substring
between the first and second `-` (`split('-')[1]`); hence the token
`name--1`, a negative value written with its sign, yields the empty value
substring and `clean_data` fails at the integer conversion with `ValueError`
instead of parsing -1. -/
theorem c10_value_substring :
    (∀ a b c : Chars, '-' ∉ a → '-' ∉ b →
      tokenValStr? (a ++ '-' :: (b ++ '-' :: c)) = some b) ∧
    tokenValStr? "name--1".toList = some [] ∧
    pyInt [] = none ∧
    cleanData c10Df = Except.error PyErr.valueError := by
  refine ⟨?_, by decide, by decide, by decide⟩
  intro a b c ha hb
  unfold tokenValStr?
  rw [splitOnChar_append_sep _ ha, splitOnChar_append_sep _ hb,
    List.getElem?_cons_succ, List.getElem?_cons_zero]

/-- Witness for C10 at the concrete token `name--1`. -/
theorem c10_value_substring_witness :
    tokenValStr? ("name".toList ++ '-' :: (([] : Chars) ++ '-' :: "1".toList)) =
      some [] :=
  c10_value_substring.1 "name".toList [] "1".toList (by decide) (by decide)

/-- C1 counterexample: on the accepted one-row input with packed string
`related-1;request-5`, the Transformer succeeds and the decoded `request`
column holds the value 5, which is neither 0 nor 1 — so not every decoded
category value in the output is in {0,1}. -/
theorem c1_counterexample :
    cleanData c1Df = Except.ok c1Out ∧
    c1Out.cols[2]? = some "request".toList ∧
    (c1Out.rows[0]?.getD [])[2]? = some (Cell.int 5) ∧
    Cell.int 5 ≠ Cell.int 0 ∧ Cell.int 5 ≠ Cell.int 1 := by
  refine ⟨by decide, by decide, by decide, by decide, by decide⟩

/-- C4 counterexample: with the duplicated identifier 1 in the messages file
and a single matching categories row, the merge has 2 rows while only 1
identifier is present in both inputs — the output row count is the inner-join
cardinality with multiplicity, not the number of shared identifiers. -/
theorem c4_counterexample :
    (loadData c4Messages c4Categories).map (fun t => t.rows.length) = some 2 ∧
    (c4Messages.ids.toFinset ∩ c4Categories.ids.toFinset).card = 1 ∧
    (2 : Nat) ≠ 1 := by
  refine ⟨by decide, by decide, by decide⟩

/-- C5 counterexample: `clean_data` succeeds on `c5Df` yet the caller's table
is mutated by the call — its packed `categories` column has been dropped in
place, so the function is not free of side effects on its argument. -/
theorem c5_counterexample :
    (cleanData c5Df).isOk = true ∧
    dfAfterClean c5Df ≠ c5Df ∧
    dfAfterClean c5Df = c5Df.dropCol catKey ∧
    colIdx? (dfAfterClean c5Df) catKey = none := by
  refine ⟨by decide, by decide, by decide, by decide⟩

/-- C6 counterexample: a packed token without a `-` separator (here the bare
token `related`) makes `clean_data` fail with `IndexError`, not with a
`ValueError`-class error. -/
theorem c6_counterexample :
    cleanData c6Df = Except.error PyErr.indexError ∧
    PyErr.indexError ≠ PyErr.valueError := by
  refine ⟨by decide, by decide⟩

/-- A merged table with two fully identical rows. -/
def c3Df : Table :=
  { cols := ["id".toList, "categories".toList],
    rows := [[Cell.int 1, Cell.str "related-1".toList],
             [Cell.int 1, Cell.str "related-1".toList]] }

/-- The cleaned output for `c3Df`: the duplicate pair collapses to one row. -/
def c3Out : Table :=
  { cols := ["id".toList, "related".toList],
    rows := [[Cell.int 1, Cell.int 1]] }

/-- C3: the Transformer's output rows contain no two identical rows
(deduplication across all columns, decoded category columns included);
the surviving rows are a subsequence of the concatenated pre-deduplication
rows, keep exactly their members, and equal the left-to-right
"keep the first occurrence" scan of those rows in their original merged
order. -/
theorem c3_no_duplicate_rows (df : Table) (names : List Chars)
    (cols : List (List Int)) (t : Table)
    (hdec : cleanDecode df = Except.ok (names, cols))
    (h : cleanData df = Except.ok t) :
    t.rows.Nodup ∧
    t.rows.Sublist (preDedupRows df cols) ∧
    (∀ r, r ∈ t.rows ↔ r ∈ preDedupRows df cols) ∧
    t.rows = specKeepFirst (preDedupRows df cols) := by
  unfold cleanData at h
  rw [hdec] at h
  injection h with h'
  subst h'
  exact ⟨dedupFirst_nodup _, dedupFirst_sublist _, fun r => mem_dedupFirst,
    (specKeepFirst_eq_dedupFirst _).symm⟩

/-- Witness for C3 on the duplicate-row table `c3Df`. -/
theorem c3_no_duplicate_rows_witness :
    c3Out.rows.Nodup ∧
    c3Out.rows = specKeepFirst (preDedupRows c3Df [[1, 1]]) :=
  ⟨(c3_no_duplicate_rows c3Df ["related".toList] [[1, 1]] c3Out (by decide)
      (by decide)).1,
   (c3_no_duplicate_rows c3Df ["related".toList] [[1, 1]] c3Out (by decide)
      (by decide)).2.2.2⟩

/-! ### Lemmas about `findIdx?` and `colIdx?` -/

theorem findIdx?_some_elim {α : Type} {p : α → Bool} :
    ∀ (l : List α) (s i : Nat), List.findIdx? p l s = some i →
      s ≤ i ∧ i - s < l.length ∧ ∃ a, l[i - s]? = some a ∧ p a = true := by
  intro l
  induction l with
  | nil => intro s i h; rw [List.findIdx?_nil] at h; cases h
  | cons x xs ih =>
    intro s i h
    rw [List.findIdx?_cons] at h
    by_cases hp : p x = true
    · rw [if_pos hp] at h
      injection h with he
      subst he
      refine ⟨Nat.le_refl s, by simp, x, ?_, hp⟩
      rw [Nat.sub_self]
      exact List.getElem?_cons_zero
    · rw [if_neg hp] at h
      obtain ⟨hs, hlt, a, ha, hpa⟩ := ih (s + 1) i h
      refine ⟨by omega, by simp; omega, a, ?_, hpa⟩
      have hk : i - s = (i - (s + 1)) + 1 := by omega
      rw [hk, List.getElem?_cons_succ]
      exact ha

theorem colIdx?_spec {t : Table} {name : Chars} {i : Nat}
    (h : colIdx? t name = some i) :
    i < t.cols.length ∧ t.cols[i]? = some name := by
  obtain ⟨_, hlt, a, ha, hpa⟩ := findIdx?_some_elim t.cols 0 i h
  rw [Nat.sub_zero] at hlt ha
  have : a = name := of_decide_eq_true hpa
  subst this
  exact ⟨hlt, ha⟩

theorem findIdx?_append_last {α : Type} {p : α → Bool} :
    ∀ (l : List α) (x : α) (s : Nat), (∀ y ∈ l, p y = false) → p x = true →
      List.findIdx? p (l ++ [x]) s = some (s + l.length) := by
  intro l
  induction l with
  | nil =>
    intro x s _ hx
    rw [List.nil_append, List.findIdx?_cons, if_pos hx]
    simp
  | cons y ys ih =>
    intro x s hall hx
    rw [List.cons_append, List.findIdx?_cons,
      if_neg (by rw [hall y (List.mem_cons_self y ys)]; simp),
      ih x (s + 1) (fun z hz => hall z (List.mem_cons_of_mem y hz)) hx]
    congr 1
    simp
    omega

/-! ### Lemmas used by the Loader cardinality claim -/

theorem filterMap_eq_map_of_some {α β : Type} (f : α → Option β) (g : α → β) :
    ∀ (l : List α), (∀ x ∈ l, f x = some (g x)) → l.filterMap f = l.map g := by
  intro l
  induction l with
  | nil => intro _; rfl
  | cons x xs ih =>
    intro h
    rw [List.filterMap_cons, h x (List.mem_cons_self x xs), List.map_cons,
      ih (fun z hz => h z (List.mem_cons_of_mem x hz))]

theorem sum_map_ite_one {α : Type} (p : α → Bool) :
    ∀ (l : List α), (l.map (fun x => if p x = true then 1 else 0)).sum
      = l.countP p := by
  intro l
  induction l with
  | nil => rfl
  | cons x xs ih =>
    rw [List.map_cons, List.sum_cons, ih, List.countP_cons]
    omega

instance (t : Table) : Decidable t.WF := by
  unfold Table.WF
  infer_instance

theorem sum_map_ite_one_prop {α : Type} (p : α → Prop) [DecidablePred p] :
    ∀ (l : List α), (l.map (fun x => if p x then 1 else 0)).sum
      = l.countP (fun x => decide (p x)) := by
  intro l
  induction l with
  | nil => rfl
  | cons x xs ih =>
    rw [List.map_cons, List.sum_cons, ih, List.countP_cons]
    by_cases hp : p x
    · simp [hp]; omega
    · simp [hp]

/-- C4 (amended): when every identifier appears at most once in each input
table, the Loader's output row count equals the number of identifiers present
in both inputs (the cardinality of the set intersection of the id columns),
and every output row is built from a messages row and a categories row that
share the same identifier — rows with no counterpart are excluded.  (The
unamended claim fails when an identifier is duplicated: the inner join then
emits one row per matching pair, see the counterexample.) -/
theorem c4_join_cardinality (m c merged : Table)
    (hld : loadData m c = some merged)
    (hwm : m.WF) (hwc : c.WF)
    (hnm : m.ids.Nodup) (hnc : c.ids.Nodup) :
    merged.rows.length = (m.ids.toFinset ∩ c.ids.toFinset).card ∧
    (∀ r ∈ merged.rows, ∃ mr ∈ m.rows, ∃ cr ∈ c.rows,
      ∃ mi ci, colIdx? m idKey = some mi ∧ colIdx? c idKey = some ci ∧
        mr[mi]? = cr[ci]? ∧ r = mr ++ cr.eraseIdx ci) := by
  unfold loadData at hld
  cases hmi : colIdx? m idKey with
  | none => rw [hmi] at hld; cases hld
  | some mi =>
    cases hci : colIdx? c idKey with
    | none => rw [hmi, hci] at hld; cases hld
    | some ci =>
      rw [hmi, hci] at hld
      injection hld with h'
      subst h'
      obtain ⟨hmlt, hmcol⟩ := colIdx?_spec hmi
      obtain ⟨hclt, hccol⟩ := colIdx?_spec hci
      have hmrow : ∀ r ∈ m.rows, r[mi]? = some ((r[mi]?).getD (Cell.int 0)) := by
        intro r hr
        have hlt : mi < r.length := by rw [hwm r hr]; exact hmlt
        rw [List.getElem?_eq_getElem hlt]
        rfl
      have hcrow : ∀ r ∈ c.rows, r[ci]? = some ((r[ci]?).getD (Cell.int 0)) := by
        intro r hr
        have hlt : ci < r.length := by rw [hwc r hr]; exact hclt
        rw [List.getElem?_eq_getElem hlt]
        rfl
      have hids_m : m.ids = m.rows.map (fun r => (r[mi]?).getD (Cell.int 0)) := by
        unfold Table.ids
        rw [hmi]
        exact filterMap_eq_map_of_some _ _ m.rows hmrow
      have hids_c : c.ids = c.rows.map (fun r => (r[ci]?).getD (Cell.int 0)) := by
        unfold Table.ids
        rw [hci]
        exact filterMap_eq_map_of_some _ _ c.rows hcrow
      constructor
      · dsimp only
        rw [List.length_flatMap]
        have hcount_inner : ∀ mr ∈ m.rows,
            List.countP (fun cr => decide (cr[ci]? = mr[mi]?)) c.rows
              = List.count ((mr[mi]?).getD (Cell.int 0)) c.ids := by
          intro mr hmr
          have h1 : List.countP (fun cr => decide (cr[ci]? = mr[mi]?)) c.rows
              = List.countP
                  (fun cr => (cr[ci]?).getD (Cell.int 0)
                    == (mr[mi]?).getD (Cell.int 0)) c.rows := by
            refine List.countP_congr ?_
            intro cr hcr
            simp only [decide_eq_true_eq, beq_iff_eq]
            rw [hcrow cr hcr, hmrow mr hmr]
            exact Option.some_inj
          rw [h1, hids_c, List.count, List.countP_map]
          rfl
        have hmap : List.map
              (List.length ∘ fun mr =>
                (c.rows.filter (fun cr => cr[ci]? = mr[mi]?)).map
                  (fun cr => mr ++ cr.eraseIdx ci)) m.rows
            = List.map (fun mr =>
                if (mr[mi]?).getD (Cell.int 0) ∈ c.ids then 1 else 0) m.rows := by
          refine List.map_congr_left ?_
          intro mr hmr
          show ((c.rows.filter (fun cr => cr[ci]? = mr[mi]?)).map
            (fun cr => mr ++ cr.eraseIdx ci)).length = _
          rw [List.length_map, ← List.countP_eq_length_filter, hcount_inner mr hmr]
          by_cases hin : (mr[mi]?).getD (Cell.int 0) ∈ c.ids
          · rw [if_pos hin, List.count_eq_one_of_mem hnc hin]
          · rw [if_neg hin, List.count_eq_zero_of_not_mem hin]
        rw [hmap, sum_map_ite_one_prop (fun mr => (mr[mi]?).getD (Cell.int 0) ∈ c.ids)]
        have h3 : List.countP
              (fun mr => decide ((mr[mi]?).getD (Cell.int 0) ∈ c.ids)) m.rows
            = List.countP (fun x => decide (x ∈ c.ids))
                (List.map (fun r => (r[mi]?).getD (Cell.int 0)) m.rows) := by
          rw [List.countP_map]
          rfl
        rw [h3, ← hids_m, List.countP_eq_length_filter]
        have h4 : m.ids.filter (fun x => decide (x ∈ c.ids)) = m.ids ∩ c.ids := by
          rw [List.inter_def]
          refine (List.filter_congr ?_).symm
          intro x _
          rw [List.elem_eq_mem]
        rw [h4, ← List.toFinset_card_of_nodup ?nodup, List.toFinset_inter]
        case nodup =>
          rw [List.inter_def]
          exact hnm.filter _
      · intro r hr
        dsimp only at hr
        obtain ⟨mr, hmr, hrf⟩ := List.mem_flatMap.mp hr
        obtain ⟨cr, hcrmem, hreq⟩ := List.mem_map.mp hrf
        obtain ⟨hcr, hpred⟩ := List.mem_filter.mp hcrmem
        exact ⟨mr, hmr, cr, hcr, mi, ci, rfl, rfl,
          (of_decide_eq_true hpred).symm, hreq.symm⟩

/-- Witness for C4 on the two-row concrete scenario tables (unique ids on
both sides): the merge has 2 rows and 2 shared identifiers. -/
theorem c4_join_cardinality_witness :
    c2Merged.rows.length = (c2Messages.ids.toFinset ∩ c2Categories.ids.toFinset).card :=
  (c4_join_cardinality c2Messages c2Categories c2Merged (by decide)
    (by decide) (by decide) (by decide) (by decide)).1

theorem zip_map_fst_snd {α β : Type} :
    ∀ (l : List (α × β)), (l.map Prod.fst).zip (l.map Prod.snd) = l := by
  intro l
  induction l with
  | nil => rfl
  | cons p ps ih => rw [List.map_cons, List.map_cons, List.zip_cons_cons, ih]

theorem mem_of_getElem?_eq_some {α : Type} {l : List α} {i : Nat} {a : α}
    (h : l[i]? = some a) : a ∈ l := by
  obtain ⟨hlt, he⟩ := List.getElem?_eq_some_iff.mp h
  rw [← he]
  exact List.getElem_mem hlt

theorem dropCol_row_colCells {cols : List Chars} {r : List Cell} (name : Chars)
    (hne : name ≠ catKey) (hlen : r.length = cols.length) :
    (((cols.filter (fun c => c ≠ catKey)).zip
        (((cols.zip r).filter (fun p => p.1 ≠ catKey)).map Prod.snd)).filter
      (fun p => p.1 = name)).map Prod.snd
      = ((cols.zip r).filter (fun p => p.1 = name)).map Prod.snd := by
  have hfst : cols.filter (fun c => c ≠ catKey)
      = ((cols.zip r).filter (fun p => p.1 ≠ catKey)).map Prod.fst := by
    have hc : cols = (cols.zip r).map Prod.fst :=
      (List.map_fst_zip cols r (by omega)).symm
    conv_lhs => rw [hc]
    rw [List.filter_map]
    rfl
  rw [hfst, zip_map_fst_snd, List.filter_filter]
  refine congrArg (List.map Prod.snd) (List.filter_congr ?_)
  intro p _
  by_cases hp : p.1 = name
  · simp [hp, hne]
  · simp [hp]

/-- C5 (amended): `clean_data`'s result depends only on its input, but the
call is not free of side effects on its argument: whenever it succeeds, the
caller's table has been mutated in place by dropping the packed `categories`
column (so the column count strictly shrinks), while the row count and every
other column's cells are left unchanged; on failure the input is untouched
(`dfAfterClean` captures the caller's view of the argument after the call). -/
theorem c5_input_mutation (df : Table) (hwf : df.WF)
    (hok : (cleanData df).isOk = true) :
    dfAfterClean df = df.dropCol catKey ∧
    (dfAfterClean df).cols.length < df.cols.length ∧
    (dfAfterClean df).rows.length = df.rows.length ∧
    ∀ name, name ≠ catKey → (dfAfterClean df).colCells name = df.colCells name := by
  cases hc : cleanData df with
  | error e => rw [hc] at hok; cases hok
  | ok t =>
    have h1 : dfAfterClean df = df.dropCol catKey := by
      unfold dfAfterClean
      rw [hc]
    have hmem : catKey ∈ df.cols := by
      unfold cleanData at hc
      cases hd : cleanDecode df with
      | error e => rw [hd] at hc; cases hc
      | ok p =>
        obtain ⟨names, cols⟩ := p
        obtain ⟨catIdx, t0, rawCols, hci, hrest⟩ := cleanDecode_ok_elim hd
        exact mem_of_getElem?_eq_some (colIdx?_spec hci).2
    refine ⟨h1, ?_, ?_, ?_⟩
    · rw [h1]
      show (df.cols.filter (fun c => c ≠ catKey)).length < df.cols.length
      exact List.length_filter_lt_length_iff_exists.mpr ⟨catKey, hmem, by simp⟩
    · rw [h1]
      show (df.rows.map _).length = df.rows.length
      exact List.length_map df.rows _
    · intro name hne
      rw [h1]
      unfold Table.colCells Table.dropCol
      dsimp only
      rw [List.map_map]
      refine List.map_congr_left ?_
      intro r hr
      exact dropCol_row_colCells name hne (hwf r hr)

/-- Witness for C5 at the concrete accepted table `c5Df`. -/
theorem c5_input_mutation_witness :
    dfAfterClean c5Df = c5Df.dropCol catKey ∧
    (dfAfterClean c5Df).cols.length < c5Df.cols.length :=
  ⟨(c5_input_mutation c5Df (by decide) (by decide)).1,
   (c5_input_mutation c5Df (by decide) (by decide)).2.1⟩

theorem forall₂_getElem?_right {α β : Type} {R : α → β → Prop} {l₁ : List α}
    {l₂ : List β} (h : List.Forall₂ R l₁ l₂) :
    ∀ {i : Nat} {b : β}, l₂[i]? = some b → ∃ a, l₁[i]? = some a ∧ R a b := by
  induction h with
  | nil => intro i b hb; simp at hb
  | cons hR htail ihh =>
    intro i b hb
    cases i with
    | zero =>
      rw [List.getElem?_cons_zero] at hb
      cases hb
      exact ⟨_, List.getElem?_cons_zero, hR⟩
    | succ n =>
      rw [List.getElem?_cons_succ] at hb
      obtain ⟨a, ha, hR'⟩ := ihh hb
      refine ⟨a, ?_, hR'⟩
      rw [List.getElem?_cons_succ]
      exact ha

theorem mapE_range_getElem {ε β : Type} {f : Nat → Except ε β} {n : Nat}
    {ys : List β} (h : mapE f (List.range n) = Except.ok ys) {j : Nat} {y : β}
    (hy : ys[j]? = some y) : f j = Except.ok y := by
  have hF := (mapE_ok_iff f _ _).mp h
  obtain ⟨a, ha, hR⟩ := forall₂_getElem?_right hF hy
  obtain ⟨hlt, he⟩ := List.getElem?_eq_some_iff.mp ha
  rw [List.getElem_range] at he
  rw [he]
  exact hR

theorem mapE_range_intro {ε β : Type} {f : Nat → Except ε β} {n : Nat}
    {ys : List β} (hlen : ys.length = n)
    (h : ∀ (j : Nat) (y : β), ys[j]? = some y → f j = Except.ok y) :
    mapE f (List.range n) = Except.ok ys := by
  refine (mapE_ok_iff f _ _).mpr (forall₂_of_getElem? (by simp [hlen]) ?_)
  intro i a b ha hb
  obtain ⟨hlt, he⟩ := List.getElem?_eq_some_iff.mp ha
  rw [List.getElem_range] at he
  rw [← he]
  exact h i b hb

theorem getD_mem_or {α : Type} (l : List α) (i : Nat) (d : α) :
    l.getD i d ∈ l ∨ l.getD i d = d := by
  rw [List.getD_eq_getElem?_getD]
  cases hl : l[i]? with
  | none => right; rfl
  | some a => left; exact mem_of_getElem?_eq_some hl

theorem filter_cols_eq_map_fst {cols : List Chars} {r : List Cell}
    (hlen : r.length = cols.length) :
    cols.filter (fun c => c ≠ catKey)
      = ((cols.zip r).filter (fun p => p.1 ≠ catKey)).map Prod.fst := by
  have hc : cols = (cols.zip r).map Prod.fst :=
    (List.map_fst_zip cols r (by omega)).symm
  conv_lhs => rw [hc]
  rw [List.filter_map]
  rfl

theorem cleanData_ok_elim {df : Table} {t : Table} {names : List Chars}
    {cols : List (List Int)} (hdec : cleanDecode df = Except.ok (names, cols))
    (h : cleanData df = Except.ok t) :
    t.cols = (df.dropCol catKey).cols ++ names ∧
    t.rows = dedupFirst (preDedupRows df cols) := by
  unfold cleanData at h
  rw [hdec] at h
  injection h with h'
  subst h'
  exact ⟨rfl, rfl⟩

theorem mem_preDedupRows {df : Table} {cols : List (List Int)} {r : List Cell}
    (h : r ∈ preDedupRows df cols) :
    ∃ dr i, dr ∈ (df.dropCol catKey).rows ∧ i < df.rows.length ∧
      r = dr ++ cols.map (fun col => Cell.int (col.getD i 0)) := by
  unfold preDedupRows at h
  obtain ⟨p, hp, hr⟩ := List.mem_map.mp h
  obtain ⟨h1, h2⟩ := List.of_mem_zip hp
  unfold catValRows at h2
  obtain ⟨i, hi, h2'⟩ := List.mem_map.mp h2
  refine ⟨p.1, i, h1, List.mem_range.mp hi, ?_⟩
  rw [← hr, ← h2']

theorem dropCol_rows_length {df : Table} (hwf : df.WF) :
    ∀ dr ∈ (df.dropCol catKey).rows, dr.length = (df.dropCol catKey).cols.length := by
  intro dr hdr
  obtain ⟨r, hr, hg⟩ := List.mem_map.mp hdr
  subst hg
  show (((df.cols.zip r).filter (fun p => p.1 ≠ catKey)).map Prod.snd).length
    = (df.cols.filter (fun c => c ≠ catKey)).length
  rw [List.length_map, filter_cols_eq_map_fst (hwf r hr), List.length_map]

/-- The 2-to-1 rewriting applied to the `related` column. -/
def fix2 (v : Int) : Int := if v = 2 then 1 else v

theorem relatedFix_getElem {names : List Chars} {rawCols : List (List Int)}
    {j : Nat} {colj : List Int}
    (h : (relatedFix names rawCols)[j]? = some colj) :
    ∃ nm rawColj, names[j]? = some nm ∧ rawCols[j]? = some rawColj ∧
      colj = (if nm = relatedKey then rawColj.map fix2 else rawColj) := by
  unfold relatedFix at h
  rw [List.getElem?_map] at h
  cases hz : (names.zip rawCols)[j]? with
  | none => rw [hz] at h; cases h
  | some p =>
    rw [hz] at h
    obtain ⟨hn, hr⟩ := (List.getElem?_zip_eq_some.mp hz : _)
    injection h with h'
    exact ⟨p.1, p.2, hn, hr, h'.symm⟩

theorem relatedFix_length (names : List Chars) (rawCols : List (List Int)) :
    (relatedFix names rawCols).length = min names.length rawCols.length := by
  unfold relatedFix
  rw [List.length_map, List.length_zip]

/-- C1 (amended): unconditionally, the decoded column named `related` never
contains the value 2 in the Transformer's output (the 2-to-1 rewrite
guarantees it); and under the precondition that every token value in the
input is 0 or 1 — allowing 2 only at positions whose first-row-derived name
is `related` — every decoded category value in the output is in {0,1}.
(The unamended universal claim fails: any other out-of-range value, such as
the 5 of the counterexample, passes through the decoder unchanged.) -/
theorem c1_category_values (df : Table) (catIdx : Nat) (names : List Chars)
    (cols : List (List Int)) (hwf : df.WF)
    (hci : colIdx? df catKey = some catIdx)
    (hdec : cleanDecode df = Except.ok (names, cols)) :
    (∀ (j : Nat) (colj : List Int), names[j]? = some relatedKey →
        cols[j]? = some colj → ∀ v ∈ colj, v ≠ 2) ∧
    ((∀ (j : Nat) (o : Option Chars) (v : Int), j < names.length →
        o ∈ colEntries (rawTokens df catIdx) j → decodesTo o v →
        v = 0 ∨ v = 1 ∨ (v = 2 ∧ names[j]? = some relatedKey)) →
      ∀ colj ∈ cols, ∀ v ∈ colj, v = 0 ∨ v = 1) ∧
    (∀ t, cleanData df = Except.ok t → ∀ r ∈ t.rows,
      ∀ (k : Nat) (colj : List Int) (cell : Cell),
        names[k]? = some relatedKey → cols[k]? = some colj →
        r[(df.dropCol catKey).cols.length + k]? = some cell →
        cell ≠ Cell.int 2) ∧
    ((∀ (j : Nat) (o : Option Chars) (v : Int), j < names.length →
        o ∈ colEntries (rawTokens df catIdx) j → decodesTo o v →
        v = 0 ∨ v = 1 ∨ (v = 2 ∧ names[j]? = some relatedKey)) →
      ∀ t, cleanData df = Except.ok t → ∀ r ∈ t.rows,
        ∀ (k : Nat) (cell : Cell), k < names.length →
          r[(df.dropCol catKey).cols.length + k]? = some cell →
          cell = Cell.int 0 ∨ cell = Cell.int 1) := by
  obtain ⟨catIdx₀, t0, rawCols, hci₀, hcount, hh, hwidth, hnames, hm, hcols, hrel⟩ :=
    cleanDecode_ok_elim hdec
  rw [hci] at hci₀
  injection hci₀ with hidx
  subst hidx
  have hlen_names : names.length = t0.length := by rw [hnames, List.length_map]
  have hlen_raw : rawCols.length = t0.length := by
    rw [mapE_ok_length hm, List.length_range]
  have hlen_cols : cols.length = names.length := by
    rw [hcols, relatedFix_length]
    omega
  -- per-column decode facts
  have hcolfact : ∀ (j : Nat) (rawColj : List Int), rawCols[j]? = some rawColj →
      List.Forall₂ decodesTo (colEntries (rawTokens df catIdx) j) rawColj := by
    intro j rawColj hj
    have hp := mapE_range_getElem hm hj
    exact (processCol_ok_iff.mp hp).2
  -- conjunct 1: the related column never holds 2
  have hc1 : ∀ (j : Nat) (colj : List Int), names[j]? = some relatedKey →
      cols[j]? = some colj → ∀ v ∈ colj, v ≠ 2 := by
    intro j colj hnj hcj v hv
    rw [hcols] at hcj
    obtain ⟨nm, rawColj, hn, hr, he⟩ := relatedFix_getElem hcj
    rw [hnj] at hn
    injection hn with hn'
    rw [← hn', if_pos rfl] at he
    subst he
    obtain ⟨x, hx, hfx⟩ := List.mem_map.mp hv
    unfold fix2 at hfx
    by_cases hx2 : x = 2
    · rw [if_pos hx2] at hfx
      omega
    · rw [if_neg hx2] at hfx
      omega
  -- conjunct 2: all values in {0,1} under the precondition
  have hc2 : (∀ (j : Nat) (o : Option Chars) (v : Int), j < names.length →
      o ∈ colEntries (rawTokens df catIdx) j → decodesTo o v →
      v = 0 ∨ v = 1 ∨ (v = 2 ∧ names[j]? = some relatedKey)) →
      ∀ colj ∈ cols, ∀ v ∈ colj, v = 0 ∨ v = 1 := by
    intro H colj hcolj v hv
    obtain ⟨j, hj⟩ := List.mem_iff_getElem?.mp hcolj
    rw [hcols] at hj
    obtain ⟨nm, rawColj, hn, hr, he⟩ := relatedFix_getElem hj
    have hjlt : j < names.length := (List.getElem?_eq_some_iff.mp hn).1
    have hF := hcolfact j rawColj hr
    have hval : ∀ x ∈ rawColj, x = 0 ∨ x = 1 ∨ (x = 2 ∧ names[j]? = some relatedKey) := by
      intro x hx
      obtain ⟨i, hi⟩ := List.mem_iff_getElem?.mp hx
      obtain ⟨o, ho, hdec'⟩ := forall₂_getElem?_right hF hi
      exact H j o x hjlt (mem_of_getElem?_eq_some ho) hdec'
    by_cases hnm : nm = relatedKey
    · rw [if_pos hnm] at he
      subst he
      obtain ⟨x, hx, hfx⟩ := List.mem_map.mp hv
      rcases hval x hx with rfl | rfl | ⟨rfl, _⟩
      · left; rw [← hfx]; rfl
      · right; rw [← hfx]; rfl
      · right; rw [← hfx]; rfl
    · subst he
      rw [if_neg hnm] at hv
      rcases hval v hv with rfl | rfl | ⟨rfl, hrel2⟩
      · left; rfl
      · right; rfl
      · rw [hn] at hrel2
        injection hrel2 with hn2
        exact absurd hn2 hnm
  -- common structure of output rows
  have hrowstruct : ∀ t, cleanData df = Except.ok t → ∀ r ∈ t.rows,
      ∀ (k : Nat) (cell : Cell),
        r[(df.dropCol catKey).cols.length + k]? = some cell →
        ∃ i colj, cols[k]? = some colj ∧ cell = Cell.int (colj.getD i 0) := by
    intro t ht r hr k cell hcell
    obtain ⟨hcols', hrows'⟩ := cleanData_ok_elim hdec ht
    rw [hrows'] at hr
    have hr' : r ∈ preDedupRows df cols := (dedupFirst_sublist _).subset hr
    obtain ⟨dr, i, hdr, hi, hre⟩ := mem_preDedupRows hr'
    subst hre
    have hdlen : dr.length = (df.dropCol catKey).cols.length :=
      dropCol_rows_length hwf dr hdr
    rw [List.getElem?_append_right (by omega)] at hcell
    rw [hdlen] at hcell
    rw [Nat.add_sub_cancel_left] at hcell
    rw [List.getElem?_map] at hcell
    cases hck : cols[k]? with
    | none => rw [hck] at hcell; cases hcell
    | some colj =>
      rw [hck] at hcell
      injection hcell with hcell'
      exact ⟨i, colj, rfl, hcell'.symm⟩
  refine ⟨hc1, hc2, ?_, ?_⟩
  · intro t ht r hr k colj cell hnk hck hcell
    obtain ⟨i, colj2, hck2, hce⟩ := hrowstruct t ht r hr k cell hcell
    rw [hck] at hck2
    injection hck2 with hcj
    subst hcj
    subst hce
    intro hcontra
    injection hcontra with hv
    rcases getD_mem_or colj i 0 with hmem | hzero
    · exact hc1 k colj hnk hck _ hmem hv
    · rw [hzero] at hv
      exact absurd hv (by decide)
  · intro H t ht r hr k cell hk hcell
    obtain ⟨i, colj, hck, hce⟩ := hrowstruct t ht r hr k cell hcell
    subst hce
    rcases getD_mem_or colj i 0 with hmem | hzero
    · rcases hc2 H colj (mem_of_getElem?_eq_some hck) _ hmem with h0 | h1
      · left; rw [h0]
      · right; rw [h1]
    · left; rw [hzero]

/-- Witness for C1 at the concrete scenario table: the decoded `related`
column value 1 (coerced from 2 in row 2) differs from 2, both at the
column level and in the final output row. -/
theorem c1_category_values_witness :
    (1 : Int) ≠ 2 ∧ Cell.int 1 ≠ Cell.int 2 :=
  ⟨(c1_category_values c2Merged 2 ["related".toList, "request".toList]
      [[1, 1], [0, 1]] (by decide) (by decide) (by decide)).1 0 [1, 1]
      (by decide) (by decide) 1 (by decide),
   (c1_category_values c2Merged 2 ["related".toList, "request".toList]
      [[1, 1], [0, 1]] (by decide) (by decide) (by decide)).2.2.1 c2Cleaned
      (by decide)
      [Cell.int 1, Cell.str "help".toList, Cell.int 1, Cell.int 0] (by decide)
      0 [1, 1] (Cell.int 1) (by decide) (by decide) (by decide)⟩

theorem countP_eq_count {α : Type} [DecidableEq α] (l : List α) (a : α) :
    l.countP (fun c => decide (c = a)) = l.count a := by
  rw [List.count]
  refine List.countP_congr ?_
  intro x _
  simp

theorem cleanDecode_err_intro {df : Table} {catIdx : Nat} {t0 : List Chars}
    {e : PyErr}
    (hci : colIdx? df catKey = some catIdx)
    (hcount : df.cols.countP (fun c => c = catKey) < 2)
    (hh : (rawTokens df catIdx).head? = some (some t0))
    (hw : colWidth (rawTokens df catIdx) = t0.length)
    (hm : mapE (processCol (rawTokens df catIdx) (t0.map tokenName))
        (List.range t0.length) = Except.error e) :
    cleanDecode df = Except.error e := by
  unfold cleanDecode
  simp only [hci]
  rw [if_neg (by omega : ¬ 2 ≤ df.cols.countP (fun c => c = catKey))]
  simp only [hh]
  rw [hw, if_neg (lt_irrefl t0.length)]
  simp only [hm]

/-- C6 (amended): on nonempty tables whose packed cells are all strings with
the first row's token count, and whose first-row category names are distinct
and include `related`, and in which every token has a `-` separator: if every
token's value part parses as an integer the Transformer succeeds, and if some
token's value part is non-numeric the Transformer fails with `ValueError`.
(The unamended claim is wrong about tokens that cannot be split at all: a
token without `-` raises `IndexError`, not `ValueError` — see the
counterexample.) -/
theorem c6_error_classes (df : Table) (catIdx : Nat) (t0 : List Chars)
    (hci : colIdx? df catKey = some catIdx)
    (hcount : df.cols.countP (fun c => c = catKey) < 2)
    (hh : (rawTokens df catIdx).head? = some (some t0))
    (Huni : ∀ o ∈ rawTokens df catIdx, o.isSome = true ∧ rowWidth o = t0.length)
    (Hdash : ∀ o ∈ rawTokens df catIdx, ∀ tok ∈ o.getD [],
      (tokenValStr? tok).isSome = true)
    (Hnodup : (t0.map tokenName).Nodup)
    (Hrel : relatedKey ∈ t0.map tokenName) :
    ((∀ o ∈ rawTokens df catIdx, ∀ tok ∈ o.getD [],
        ((tokenValStr? tok).bind pyInt).isSome = true) →
      (cleanData df).isOk = true) ∧
    ((∃ toks, some toks ∈ rawTokens df catIdx ∧ ∃ tok, tok ∈ toks ∧
        ∃ vs, tokenValStr? tok = some vs ∧ pyInt vs = none) →
      cleanData df = Except.error PyErr.valueError) := by
  have hwidth : colWidth (rawTokens df catIdx) = t0.length := by
    have hne : rawTokens df catIdx ≠ [] := by
      intro hnil
      rw [hnil] at hh
      cases hh
    unfold colWidth
    rw [foldl_max_const ((rawTokens df catIdx).map rowWidth) t0.length 0 ?_ ?_]
    · exact max_eq_right (Nat.zero_le _)
    · intro x hx
      obtain ⟨o, ho, hxe⟩ := List.mem_map.mp hx
      rw [← hxe]
      exact (Huni o ho).2
    · intro hnil
      exact hne (List.map_eq_nil_iff.mp hnil)
  have hdup : ∀ j : Nat,
      ¬ 2 ≤ (t0.map tokenName).countP
        (fun c => c = (t0.map tokenName).getD j []) := by
    intro j
    rw [countP_eq_count]
    have := (List.nodup_iff_count_le_one.mp Hnodup) ((t0.map tokenName).getD j [])
    omega
  have hentry : ∀ (j : Nat), j < t0.length →
      ∀ o' ∈ colEntries (rawTokens df catIdx) j,
        ∃ toks tok, some toks ∈ rawTokens df catIdx ∧ toks[j]? = some tok ∧
          o' = some tok ∧ tok ∈ toks := by
    intro j hj o' ho'
    obtain ⟨o, ho, hoe⟩ := List.mem_map.mp ho'
    obtain ⟨hsome, hwid⟩ := Huni o ho
    cases o with
    | none => cases hsome
    | some toks =>
      have hlen : toks.length = t0.length := hwid
      have hoe' : toks[j]? = o' := hoe
      have hjl : j < toks.length := by omega
      refine ⟨toks, toks[j], ho, ?_, ?_, List.getElem_mem hjl⟩
      · rw [List.getElem?_eq_getElem hjl]
      · rw [← hoe', List.getElem?_eq_getElem hjl]
  have happly : ∀ (j : Nat), j < t0.length → ∃ vstrs,
      applySplitCol (colEntries (rawTokens df catIdx) j) = Except.ok vstrs ∧
      ∀ vs ∈ vstrs, ∃ toks tok, some toks ∈ rawTokens df catIdx ∧ tok ∈ toks ∧
        tokenValStr? tok = some vs := by
    intro j hj
    have hallok : ∀ o' ∈ colEntries (rawTokens df catIdx) j,
        ∃ b, splitOneTok o' = Except.ok b := by
      intro o' ho'
      obtain ⟨toks, tok, hmemt, hjt, he, htm⟩ := hentry j hj o' ho'
      subst he
      obtain ⟨vs, hvs⟩ := Option.isSome_iff_exists.mp (Hdash (some toks) hmemt tok htm)
      exact ⟨vs, splitOneTok_ok_iff.mpr ⟨tok, rfl, hvs⟩⟩
    obtain ⟨vstrs, hv⟩ := mapE_all_ok hallok
    refine ⟨vstrs, hv, ?_⟩
    intro vs hvsmem
    obtain ⟨i, hi⟩ := List.mem_iff_getElem?.mp hvsmem
    have hF := (mapE_ok_iff splitOneTok _ _).mp hv
    obtain ⟨o', ho', hsp⟩ := forall₂_getElem?_right hF hi
    obtain ⟨tok, hoe, htv⟩ := splitOneTok_ok_iff.mp hsp
    obtain ⟨toks, tok2, hmemt, hjt, hoeq, htm⟩ :=
      hentry j hj o' (mem_of_getElem?_eq_some ho')
    rw [hoe] at hoeq
    injection hoeq with hte
    subst hte
    exact ⟨toks, tok, hmemt, htm, htv⟩
  constructor
  · intro Hok
    have hproc : ∀ j ∈ List.range t0.length, ∃ colsj,
        processCol (rawTokens df catIdx) (t0.map tokenName) j
          = Except.ok colsj := by
      intro j hjr
      have hj := List.mem_range.mp hjr
      obtain ⟨vstrs, hv, hvs⟩ := happly j hj
      have hint : ∀ vs ∈ vstrs, ∃ z, intOneStr vs = Except.ok z := by
        intro vs hvm
        obtain ⟨toks, tok, hmemt, htm, htv⟩ := hvs vs hvm
        have hb := Hok (some toks) hmemt tok htm
        rw [htv] at hb
        cases hp : pyInt vs with
        | none => rw [Option.some_bind, hp] at hb; cases hb
        | some z => exact ⟨z, intOneStr_ok_iff.mpr hp⟩
      obtain ⟨colsj, hcj⟩ := mapE_all_ok hint
      refine ⟨colsj, ?_⟩
      unfold processCol
      rw [if_neg (hdup j), hv]
      exact hcj
    obtain ⟨rawCols, hraw⟩ := mapE_all_ok hproc
    have hdec := cleanDecode_ok_intro hci hcount hh hwidth hraw Hrel
    unfold cleanData
    rw [hdec]
    rfl
  · rintro ⟨toks, hmemt, tok, htm, vs, htv, hnone⟩
    have hdich : ∀ j ∈ List.range t0.length,
        (∃ y, processCol (rawTokens df catIdx) (t0.map tokenName) j
          = Except.ok y) ∨
        processCol (rawTokens df catIdx) (t0.map tokenName) j
          = Except.error PyErr.valueError := by
      intro j hjr
      have hj := List.mem_range.mp hjr
      obtain ⟨vstrs, hv, hvs⟩ := happly j hj
      cases hca : astypeIntCol vstrs with
      | ok colsj =>
        left
        refine ⟨colsj, ?_⟩
        unfold processCol
        rw [if_neg (hdup j), hv]
        exact hca
      | error e =>
        right
        have he : e = PyErr.valueError := by
          obtain ⟨x, hx, hex⟩ := mapE_error_mem hca
          exact (intOneStr_error_iff.mp hex).2
        subst he
        unfold processCol
        rw [if_neg (hdup j), hv]
        exact hca
    obtain ⟨j, hjt⟩ := List.mem_iff_getElem?.mp htm
    have hjlt : j < t0.length := by
      have hj1 := (List.getElem?_eq_some_iff.mp hjt).1
      have hw2 := (Huni (some toks) hmemt).2
      have hw3 : toks.length = t0.length := hw2
      omega
    have hfail : ∃ j' ∈ List.range t0.length,
        processCol (rawTokens df catIdx) (t0.map tokenName) j'
          = Except.error PyErr.valueError := by
      refine ⟨j, List.mem_range.mpr hjlt, ?_⟩
      obtain ⟨vstrs, hv, hvschar⟩ := happly j hjlt
      obtain ⟨i, hi⟩ := List.mem_iff_getElem?.mp hmemt
      have hentryi : (colEntries (rawTokens df catIdx) j)[i]? = some (toks[j]?) := by
        unfold colEntries
        rw [List.getElem?_map, hi]
        rfl
      rw [hjt] at hentryi
      have hF := (mapE_ok_iff splitOneTok _ _).mp hv
      obtain ⟨b, hb, hsp⟩ := forall₂_getElem?_left hF hentryi
      obtain ⟨tok2, hoe, htv2⟩ := splitOneTok_ok_iff.mp hsp
      injection hoe with hte
      subst hte
      rw [htv] at htv2
      injection htv2 with hvseq
      subst hvseq
      have hbmem : vs ∈ vstrs := mem_of_getElem?_eq_some hb
      have herr : astypeIntCol vstrs = Except.error PyErr.valueError := by
        refine mapE_error_of_uniform ?_ ⟨vs, hbmem, ?_⟩
        · intro x _
          cases hp : pyInt x with
          | none => right; exact intOneStr_error_iff.mpr ⟨hp, rfl⟩
          | some z => left; exact ⟨z, intOneStr_ok_iff.mpr hp⟩
        · exact intOneStr_error_iff.mpr ⟨hnone, rfl⟩
      unfold processCol
      rw [if_neg (hdup j), hv]
      exact herr
    have hmerr : mapE (processCol (rawTokens df catIdx) (t0.map tokenName))
        (List.range t0.length) = Except.error PyErr.valueError :=
      mapE_error_of_uniform hdich hfail
    have hde := cleanDecode_err_intro hci hcount hh hwidth hmerr
    unfold cleanData
    rw [hde]

/-- A merged table whose `related` token carries the non-numeric value `x`. -/
def c6bDf : Table :=
  { cols := ["id".toList, "categories".toList],
    rows := [[Cell.int 1, Cell.str "related-x".toList]] }

/-- Witness for C6: the success side on the concrete scenario table, the
ValueError side on the non-numeric-value table `c6bDf`. -/
theorem c6_error_classes_witness :
    (cleanData c2Merged).isOk = true ∧
    cleanData c6bDf = Except.error PyErr.valueError :=
  ⟨(c6_error_classes c2Merged 2 ["related-1".toList, "request-0".toList]
      (by decide) (by decide) (by decide) (by decide) (by decide) (by decide)
      (by decide)).1 (by decide),
   (c6_error_classes c6bDf 1 ["related-x".toList]
      (by decide) (by decide) (by decide) (by decide) (by decide) (by decide)
      (by decide)).2
     ⟨["related-x".toList], by decide, "related-x".toList, by decide,
      "x".toList, by decide, by decide⟩⟩

/-! ### Lemmas for the idempotence claim -/

theorem tokenName_mem (tok : Chars) : tokenName tok ∈ splitOnChar '-' tok := by
  unfold tokenName
  cases h : splitOnChar '-' tok with
  | nil => exact absurd h (splitOnChar_ne_nil '-' tok)
  | cons a l => simp

theorem tokenName_no_dash (tok : Chars) : ('-' : Char) ∉ tokenName tok :=
  sep_not_mem_of_mem_splitOnChar (tokenName_mem tok)

theorem rawTokens_some_elim {df : Table} {catIdx : Nat} {toks : List Chars}
    (h : some toks ∈ rawTokens df catIdx) : ∃ s, toks = splitOnChar ';' s := by
  unfold rawTokens at h
  obtain ⟨r, _, he⟩ := List.mem_map.mp h
  cases hc : r[catIdx]? with
  | none => rw [hc] at he; cases he
  | some cell =>
    rw [hc] at he
    cases cell with
    | int v => cases he
    | str s =>
      refine ⟨s, ?_⟩
      injection he with he'
      rw [he']

theorem tokenName_packToken {nm : Chars} (h : ('-' : Char) ∉ nm) (v : Int) :
    tokenName (packToken nm v) = nm := by
  unfold tokenName packToken
  rw [splitOnChar_append_sep _ h]
  rfl

theorem tokenValStr?_packToken {nm : Chars} {v : Int} (h : ('-' : Char) ∉ nm)
    (hv : 0 ≤ v) : tokenValStr? (packToken nm v) = some (pyStrInt v) := by
  unfold tokenValStr? packToken
  have hdig : ('-' : Char) ∉ pyStrInt v := by
    intro hmem
    exact absurd (pyStrInt_all_digits hv _ hmem) (by decide)
  rw [splitOnChar_append_sep _ h, splitOnChar_sepfree hdig,
    List.getElem?_cons_succ, List.getElem?_cons_zero]

theorem semi_not_mem_packToken {nm : Chars} {v : Int} (h : (';' : Char) ∉ nm)
    (hv : 0 ≤ v) : (';' : Char) ∉ packToken nm v := by
  unfold packToken
  intro hmem
  rcases List.mem_append.mp hmem with h1 | h2
  · exact h h1
  · rcases List.mem_cons.mp h2 with he | h3
    · cases he
    · exact absurd (pyStrInt_all_digits hv _ h3) (by decide)

theorem forall₂_map_map {α β γ : Type} {R : β → γ → Prop} (f : α → β)
    (g : α → γ) : ∀ {l : List α}, (∀ x ∈ l, R (f x) (g x)) →
      List.Forall₂ R (l.map f) (l.map g) := by
  intro l
  induction l with
  | nil => intro _; exact List.Forall₂.nil
  | cons x xs ih =>
    intro h
    exact List.Forall₂.cons (h x (List.mem_cons_self x xs))
      (ih (fun z hz => h z (List.mem_cons_of_mem x hz)))

theorem relatedFix_ne_two {names : List Chars} {rawCols : List (List Int)}
    {j : Nat} {colj : List Int} (hn : names[j]? = some relatedKey)
    (h : (relatedFix names rawCols)[j]? = some colj) :
    ∀ v ∈ colj, v ≠ 2 := by
  obtain ⟨nm, rawColj, hn2, hr, he⟩ := relatedFix_getElem h
  rw [hn] at hn2
  injection hn2 with hn3
  rw [← hn3, if_pos rfl] at he
  subst he
  intro v hv
  obtain ⟨x, hx, hfx⟩ := List.mem_map.mp hv
  unfold fix2 at hfx
  by_cases hx2 : x = 2
  · rw [if_pos hx2] at hfx
    omega
  · rw [if_neg hx2] at hfx
    omega

theorem dedupFirst_ne_nil {α : Type} [DecidableEq α] {l : List α}
    (h : l ≠ []) : dedupFirst l ≠ [] := by
  cases l with
  | nil => exact absurd rfl h
  | cons x xs =>
    intro hnil
    have : x ∈ dedupFirst (x :: xs) := mem_dedupFirst.mpr (List.mem_cons_self x xs)
    rw [hnil] at this
    cases this

/-- The decoded integer values of a cleaned row (the cells after the first
`d` original columns). -/
def valsOfRow (d : Nat) (r : List Cell) : List Int := (r.drop d).map cellInt

/-- The packed tokens a cleaned row re-packs into. -/
def rowTokens (names : List Chars) (d : Nat) (r : List Cell) : List Chars :=
  (names.zip (valsOfRow d r)).map (fun p => packToken p.1 p.2)

/-- Column `j` as re-extracted from the cleaned rows. -/
def extractedCol (d : Nat) (rows : List (List Cell)) (j : Nat) : List Int :=
  rows.map (fun r => (valsOfRow d r).getD j 0)

theorem concat_getElem? {α : Type} {l : List α} {x : α} {n : Nat}
    (h : l.length = n) : (l ++ [x])[n]? = some x := by
  rw [← h]
  exact List.getElem?_concat_length l x

theorem getD_map_of_lt {α β : Type} (f : α → β) (l : List α) {j : Nat}
    (h : j < l.length) (dflt : β) : (l.map f).getD j dflt = f l[j] := by
  rw [List.getD_eq_getElem?_getD, List.getElem?_map, List.getElem?_eq_getElem h]
  rfl

theorem getD_of_lt {α : Type} (l : List α) {j : Nat} (h : j < l.length)
    (dflt : α) : l.getD j dflt = l[j] := by
  rw [List.getD_eq_getElem?_getD, List.getElem?_eq_getElem h]
  rfl

theorem filter_eq_self_of_all {α : Type} {p : α → Bool} :
    ∀ {l : List α}, (∀ a ∈ l, p a = true) → l.filter p = l := by
  intro l
  induction l with
  | nil => intro _; rfl
  | cons x xs ih =>
    intro h
    rw [List.filter_cons, if_pos (h x (List.mem_cons_self x xs)),
      ih (fun z hz => h z (List.mem_cons_of_mem x hz))]

theorem relatedFix_eq_self {names : List Chars} {X : List (List Int)}
    (hlen : X.length ≤ names.length)
    (h : ∀ (j : Nat) (colj : List Int), names[j]? = some relatedKey →
      X[j]? = some colj → ∀ v ∈ colj, v ≠ 2) :
    relatedFix names X = X := by
  unfold relatedFix
  apply List.ext_getElem?
  intro j
  rw [List.getElem?_map]
  by_cases hj : j < X.length
  · have hjn : j < names.length := by omega
    have hz : (names.zip X)[j]? = some (names[j], X[j]) :=
      List.getElem?_zip_eq_some.mpr
        ⟨List.getElem?_eq_getElem hjn, List.getElem?_eq_getElem hj⟩
    rw [hz, List.getElem?_eq_getElem hj]
    show some (if names[j] = relatedKey then List.map fix2 X[j] else X[j])
      = some X[j]
    refine congrArg some ?_
    by_cases hrl : names[j] = relatedKey
    · rw [if_pos hrl]
      have h2 := h j X[j]
        (by rw [List.getElem?_eq_getElem hjn, hrl]) (List.getElem?_eq_getElem hj)
      have hid : ∀ v ∈ X[j], fix2 v = v := by
        intro v hv
        unfold fix2
        rw [if_neg (h2 v hv)]
      rw [List.map_congr_left hid]
      exact List.map_id X[j]
    · rw [if_neg hrl]
  · rw [List.getElem?_eq_none (by rw [List.length_zip]; omega),
      List.getElem?_eq_none (by omega)]
    rfl

/-- C7: running the Transformer on its own output, after re-packing the
decoded category columns into the packed `name-value;...` string form,
returns exactly the same cleaned table — in particular the same set of
category values; the `related` 2-to-1 coercion and the deduplication are
both no-ops the second time. -/
theorem c7_transformer_idempotent (df : Table) (names : List Chars)
    (cols : List (List Int)) (t : Table) (hwf : df.WF)
    (hdec : cleanDecode df = Except.ok (names, cols))
    (hclean : cleanData df = Except.ok t) :
    cleanData (repackTable t names.length) = Except.ok t := by
  obtain ⟨catIdx, t0, rawCols, hci, hcount, hh, hwidth, hnames, hm, hcols, hrel⟩ :=
    cleanDecode_ok_elim hdec
  obtain ⟨htcols, htrows⟩ := cleanData_ok_elim hdec hclean
  have hlen_names : names.length = t0.length := by rw [hnames, List.length_map]
  have hlen_raw : rawCols.length = t0.length := by
    rw [mapE_ok_length hm, List.length_range]
  have hlen_cols : cols.length = names.length := by
    rw [hcols, relatedFix_length]
    omega
  have hwpos : 1 ≤ names.length := by
    cases hn0 : names with
    | nil => rw [hn0] at hrel; cases hrel
    | cons a l => simp
  have htlen : t.cols.length
      = (df.dropCol catKey).cols.length + names.length := by
    rw [htcols, List.length_append]
  have hk : t.cols.length - names.length = (df.dropCol catKey).cols.length := by
    omega
  have hnodup : names.Nodup := by
    rw [List.nodup_iff_count_le_one]
    intro a
    by_cases ha : a ∈ names
    · obtain ⟨j, hj⟩ := List.mem_iff_getElem?.mp ha
      have hjl : j < names.length := (List.getElem?_eq_some_iff.mp hj).1
      have hF := (mapE_ok_iff (processCol (rawTokens df catIdx) names) _ _).mp hm
      have hrange : (List.range t0.length)[j]? = some j :=
        List.getElem?_range (by omega)
      obtain ⟨colsj, hcj, hpj⟩ := forall₂_getElem?_left hF hrange
      have hcount2 := (processCol_ok_iff.mp hpj).1
      have hgd : names.getD j [] = a := by
        rw [List.getD_eq_getElem?_getD, hj]
        rfl
      rw [hgd] at hcount2
      rw [← countP_eq_count]
      omega
    · rw [← countP_eq_count]
      have h0 : names.countP (fun c => decide (c = a)) = 0 :=
        List.countP_eq_zero.mpr (by
          intro x hx
          simp only [decide_eq_true_eq]
          intro he
          exact ha (he ▸ hx))
      omega
  have hname_dash : ∀ nm ∈ names, ('-' : Char) ∉ nm := by
    intro nm hnm
    rw [hnames] at hnm
    obtain ⟨tok, _, he⟩ := List.mem_map.mp hnm
    rw [← he]
    exact tokenName_no_dash tok
  have hname_semi : ∀ nm ∈ names, (';' : Char) ∉ nm := by
    intro nm hnm
    rw [hnames] at hnm
    obtain ⟨tok, htok, he⟩ := List.mem_map.mp hnm
    obtain ⟨s, hs⟩ := rawTokens_some_elim (List.mem_of_mem_head? hh)
    rw [hs] at htok
    have hts : (';' : Char) ∉ tok := sep_not_mem_of_mem_splitOnChar htok
    rw [← he]
    intro hsm
    exact hts (mem_splitOnChar_subset (tokenName_mem tok) ';' hsm)
  have hrowstruct : ∀ r ∈ t.rows, ∃ dr i,
      dr ∈ (df.dropCol catKey).rows ∧
      dr.length = (df.dropCol catKey).cols.length ∧ i < df.rows.length ∧
      r = dr ++ cols.map (fun col => Cell.int (col.getD i 0)) := by
    intro r hr
    rw [htrows] at hr
    obtain ⟨dr, i, hdr, hi, hre⟩ :=
      mem_preDedupRows ((dedupFirst_sublist _).subset hr)
    exact ⟨dr, i, hdr, dropCol_rows_length hwf dr hdr, hi, hre⟩
  have hrlen : ∀ r ∈ t.rows,
      r.length = (df.dropCol catKey).cols.length + names.length := by
    intro r hr
    obtain ⟨dr, i, _, hdlen, _, hre⟩ := hrowstruct r hr
    rw [hre, List.length_append, hdlen, List.length_map]
    omega
  have hparts : ∀ r ∈ t.rows, ∃ dr i, i < df.rows.length ∧
      r.take (df.dropCol catKey).cols.length = dr ∧
      dr ∈ (df.dropCol catKey).rows ∧
      r.drop (df.dropCol catKey).cols.length
        = cols.map (fun col => Cell.int (col.getD i 0)) := by
    intro r hr
    obtain ⟨dr, i, hdr, hdlen, hi, hre⟩ := hrowstruct r hr
    refine ⟨dr, i, hi, ?_, hdr, ?_⟩
    · rw [hre, ← hdlen, List.take_left]
    · rw [hre, ← hdlen, List.drop_left]
  have hvals : ∀ r ∈ t.rows, ∃ i, i < df.rows.length ∧
      valsOfRow (df.dropCol catKey).cols.length r
        = cols.map (fun col => col.getD i 0) := by
    intro r hr
    obtain ⟨dr, i, hi, _, _, hdrop⟩ := hparts r hr
    refine ⟨i, hi, ?_⟩
    unfold valsOfRow
    rw [hdrop, List.map_map]
    rfl
  have hvlen : ∀ r ∈ t.rows,
      (valsOfRow (df.dropCol catKey).cols.length r).length = names.length := by
    intro r hr
    unfold valsOfRow
    rw [List.length_map, List.length_drop, hrlen r hr]
    omega
  have hcols_nonneg : ∀ colj ∈ cols, ∀ v ∈ colj, 0 ≤ v := by
    intro colj hcolj v hv
    obtain ⟨j, hj⟩ := List.mem_iff_getElem?.mp hcolj
    rw [hcols] at hj
    obtain ⟨nm, rawColj, hn, hrj, he⟩ := relatedFix_getElem hj
    have hraw_nonneg : ∀ x ∈ rawColj, 0 ≤ x := by
      intro x hx
      have hF := (mapE_ok_iff (processCol (rawTokens df catIdx) names) _ _).mp hm
      have hjl : j < t0.length := by
        have := (List.getElem?_eq_some_iff.mp hrj).1
        omega
      have hrange : (List.range t0.length)[j]? = some j := List.getElem?_range hjl
      obtain ⟨colsj, hcj, hpj⟩ := forall₂_getElem?_left hF hrange
      rw [hrj] at hcj
      injection hcj with hcje
      subst hcje
      have hFor := (processCol_ok_iff.mp hpj).2
      obtain ⟨ii, hii⟩ := List.mem_iff_getElem?.mp hx
      obtain ⟨o, ho, hdec2⟩ := forall₂_getElem?_right hFor hii
      obtain ⟨tok, vs, hoe, htv, hpi⟩ := hdec2
      have hvs_nodash : ('-' : Char) ∉ vs :=
        sep_not_mem_of_mem_splitOnChar (mem_of_getElem?_eq_some htv)
      exact pyInt_nonneg_of_no_dash hvs_nodash hpi
    subst he
    by_cases hnm : nm = relatedKey
    · rw [if_pos hnm] at hv
      obtain ⟨x, hx, hfx⟩ := List.mem_map.mp hv
      have hxn := hraw_nonneg x hx
      unfold fix2 at hfx
      by_cases hx2 : x = 2
      · rw [if_pos hx2] at hfx
        omega
      · rw [if_neg hx2] at hfx
        omega
    · rw [if_neg hnm] at hv
      exact hraw_nonneg v hv
  have hcols_rel : ∀ (j : Nat) (colj : List Int), names[j]? = some relatedKey →
      cols[j]? = some colj → ∀ v ∈ colj, v ≠ 2 := by
    intro j colj hn hcj
    rw [hcols] at hcj
    exact relatedFix_ne_two hn hcj
  have hvnn : ∀ r ∈ t.rows,
      ∀ v ∈ valsOfRow (df.dropCol catKey).cols.length r, 0 ≤ v := by
    intro r hr v hv
    obtain ⟨i, _, hveq⟩ := hvals r hr
    rw [hveq] at hv
    obtain ⟨colj, hcolj, hge⟩ := List.mem_map.mp hv
    rcases getD_mem_or colj i 0 with hmem | hzero
    · exact hge ▸ hcols_nonneg colj hcolj _ hmem
    · rw [← hge, hzero]
  -- the re-packed table
  have hrtcols : (repackTable t names.length).cols
      = (df.dropCol catKey).cols ++ [catKey] := by
    show t.cols.take (t.cols.length - names.length) ++ [catKey] = _
    rw [hk, htcols]
    congr 1
    exact List.take_left _ _
  have hdcols_free : ∀ y ∈ (df.dropCol catKey).cols,
      decide (y = catKey) = false := by
    intro y hy
    have hy' : y ∈ df.cols.filter (fun c => c ≠ catKey) := hy
    obtain ⟨_, hpy⟩ := List.mem_filter.mp hy'
    simp only [decide_eq_true_eq] at hpy
    simp [hpy]
  have hci_rt : colIdx? (repackTable t names.length) catKey
      = some (df.dropCol catKey).cols.length := by
    unfold colIdx?
    rw [hrtcols, findIdx?_append_last _ _ 0 hdcols_free (by simp), Nat.zero_add]
  have hcount_rt : (repackTable t names.length).cols.countP
      (fun c => c = catKey) < 2 := by
    rw [hrtcols, List.countP_append]
    have h0 : (df.dropCol catKey).cols.countP (fun c => decide (c = catKey)) = 0 :=
      List.countP_eq_zero.mpr (fun a ha => by simp [hdcols_free a ha])
    rw [h0]
    simp [List.countP_cons]
  have hdrop_rt : t.cols.drop (t.cols.length - names.length) = names := by
    rw [hk, htcols]
    exact List.drop_left _ _
  have hraw_rt : rawTokens (repackTable t names.length)
        (df.dropCol catKey).cols.length
      = t.rows.map (fun r =>
          some (rowTokens names (df.dropCol catKey).cols.length r)) := by
    unfold rawTokens repackTable
    dsimp only
    rw [List.map_map]
    refine List.map_congr_left ?_
    intro r hr
    have htake : (r.take (t.cols.length - names.length)).length
        = (df.dropCol catKey).cols.length := by
      rw [List.length_take, hk]
      have := hrlen r hr
      omega
    show (match (r.take (t.cols.length - names.length) ++
        [Cell.str (packRow (t.cols.drop (t.cols.length - names.length))
          ((r.drop (t.cols.length - names.length)).map cellInt))])[
          (df.dropCol catKey).cols.length]? with
      | some c => splitCell c
      | none => none) = some (rowTokens names (df.dropCol catKey).cols.length r)
    rw [concat_getElem? htake]
    show some (splitOnChar ';'
        (packRow (t.cols.drop (t.cols.length - names.length))
          ((r.drop (t.cols.length - names.length)).map cellInt)))
      = some (rowTokens names (df.dropCol catKey).cols.length r)
    rw [hdrop_rt, hk]
    refine congrArg some ?_
    unfold packRow rowTokens
    refine splitOnChar_joinSep ?_ ?_
    · show (names.zip (valsOfRow (df.dropCol catKey).cols.length r)).map
          (fun p => packToken p.1 p.2) ≠ []
      intro hnil
      have hlz := congrArg List.length hnil
      rw [List.length_map, List.length_zip, hvlen r hr, min_self,
        List.length_nil] at hlz
      omega
    · show ∀ p ∈ (names.zip (valsOfRow (df.dropCol catKey).cols.length r)).map
          (fun p => packToken p.1 p.2), (';' : Char) ∉ p
      intro p hp
      obtain ⟨q, hq, hpe⟩ := List.mem_map.mp hp
      obtain ⟨hq1, hq2⟩ := List.of_mem_zip hq
      rw [← hpe]
      refine semi_not_mem_packToken (hname_semi q.1 hq1) ?_
      exact hvnn r hr q.2 hq2
  have htne : t.rows ≠ [] := by
    rw [htrows]
    refine dedupFirst_ne_nil ?_
    unfold preDedupRows
    intro hnil
    have hdf : df.rows ≠ [] := by
      intro h0
      unfold rawTokens at hh
      rw [h0] at hh
      cases hh
    rw [List.map_eq_nil_iff] at hnil
    have hl1 : (df.dropCol catKey).rows.length = df.rows.length := by
      show (df.rows.map _).length = _
      rw [List.length_map]
    have hl2 : (catValRows cols df.rows.length).length = df.rows.length := by
      unfold catValRows
      rw [List.length_map, List.length_range]
    have hlz := congrArg List.length hnil
    rw [List.length_zip, hl1, hl2, min_self, List.length_nil] at hlz
    exact hdf (List.length_eq_zero.mp hlz)
  obtain ⟨r0, rest, hr0⟩ : ∃ r0 rest, t.rows = r0 :: rest := by
    cases ht0 : t.rows with
    | nil => exact absurd ht0 htne
    | cons a l => exact ⟨a, l, rfl⟩
  have hr0mem : r0 ∈ t.rows := by
    rw [hr0]
    exact List.mem_cons_self _ _
  have htokslen : ∀ r ∈ t.rows,
      (rowTokens names (df.dropCol catKey).cols.length r).length
        = names.length := by
    intro r hr
    unfold rowTokens
    rw [List.length_map, List.length_zip, hvlen r hr, min_self]
  have hh_rt : (rawTokens (repackTable t names.length)
        (df.dropCol catKey).cols.length).head?
      = some (some (rowTokens names (df.dropCol catKey).cols.length r0)) := by
    rw [hraw_rt, List.head?_map, hr0]
    rfl
  have hw_rt : colWidth (rawTokens (repackTable t names.length)
        (df.dropCol catKey).cols.length)
      = (rowTokens names (df.dropCol catKey).cols.length r0).length := by
    rw [htokslen r0 hr0mem]
    unfold colWidth
    rw [hraw_rt, List.map_map]
    rw [foldl_max_const _ names.length 0 ?_ ?_]
    · exact max_eq_right (Nat.zero_le _)
    · intro x hx
      obtain ⟨r, hr, hxe⟩ := List.mem_map.mp hx
      rw [← hxe]
      exact htokslen r hr
    · intro hnil
      rw [List.map_eq_nil_iff] at hnil
      exact htne hnil
  have hnames_rt :
      (rowTokens names (df.dropCol catKey).cols.length r0).map tokenName
        = names := by
    unfold rowTokens
    rw [List.map_map]
    have hptw : ∀ p ∈ names.zip (valsOfRow (df.dropCol catKey).cols.length r0),
        (tokenName ∘ fun p => packToken p.1 p.2) p = Prod.fst p := by
      intro p hp
      have h1 : p.1 ∈ names := (List.of_mem_zip hp).1
      exact tokenName_packToken (hname_dash p.1 h1) p.2
    rw [List.map_congr_left hptw]
    exact List.map_fst_zip _ _ (le_of_eq (hvlen r0 hr0mem).symm)
  have hmapE_rt : mapE (processCol
        (rawTokens (repackTable t names.length) (df.dropCol catKey).cols.length)
        ((rowTokens names (df.dropCol catKey).cols.length r0).map tokenName))
      (List.range (rowTokens names (df.dropCol catKey).cols.length r0).length)
      = Except.ok ((List.range names.length).map
          (extractedCol (df.dropCol catKey).cols.length t.rows)) := by
    rw [hnames_rt, htokslen r0 hr0mem]
    refine mapE_range_intro (by rw [List.length_map, List.length_range]) ?_
    intro j colj hj
    rw [List.getElem?_map] at hj
    cases hrj : (List.range names.length)[j]? with
    | none => rw [hrj] at hj; cases hj
    | some j2 =>
      rw [hrj] at hj
      obtain ⟨hjl, hje⟩ := List.getElem?_eq_some_iff.mp hrj
      rw [List.getElem_range] at hje
      rw [List.length_range] at hjl
      subst hje
      injection hj with hje2
      subst hje2
      refine processCol_ok_iff.mpr ⟨?_, ?_⟩
      · rw [countP_eq_count]
        have := List.nodup_iff_count_le_one.mp hnodup (names.getD j [])
        omega
      · unfold colEntries extractedCol
        rw [hraw_rt, List.map_map]
        refine forall₂_map_map _ _ ?_
        intro r hr
        show decodesTo ((rowTokens names (df.dropCol catKey).cols.length r)[j]?)
          ((valsOfRow (df.dropCol catKey).cols.length r).getD j 0)
        have hvl := hvlen r hr
        have hjv : j < (valsOfRow (df.dropCol catKey).cols.length r).length := by
          omega
        have hz : (names.zip (valsOfRow (df.dropCol catKey).cols.length r))[j]?
            = some (names[j], (valsOfRow (df.dropCol catKey).cols.length r)[j]) :=
          List.getElem?_zip_eq_some.mpr
            ⟨List.getElem?_eq_getElem hjl, List.getElem?_eq_getElem hjv⟩
        have hte : (rowTokens names (df.dropCol catKey).cols.length r)[j]?
            = some (packToken names[j]
                ((valsOfRow (df.dropCol catKey).cols.length r)[j])) := by
          unfold rowTokens
          rw [List.getElem?_map, hz]
          rfl
        have hnn : 0 ≤ (valsOfRow (df.dropCol catKey).cols.length r)[j] :=
          hvnn r hr _ (List.getElem_mem hjv)
        refine ⟨packToken names[j]
            ((valsOfRow (df.dropCol catKey).cols.length r)[j]),
          pyStrInt ((valsOfRow (df.dropCol catKey).cols.length r)[j]),
          hte, ?_, ?_⟩
        · exact tokenValStr?_packToken (hname_dash _ (List.getElem_mem hjl)) hnn
        · rw [getD_of_lt _ hjv]
          exact pyInt_pyStrInt hnn
  have hrel_rt : relatedKey ∈
      (rowTokens names (df.dropCol catKey).cols.length r0).map tokenName := by
    rw [hnames_rt]
    exact hrel
  have hX_rel : ∀ (j : Nat) (colj : List Int), names[j]? = some relatedKey →
      ((List.range names.length).map
        (extractedCol (df.dropCol catKey).cols.length t.rows))[j]?
          = some colj →
      ∀ v ∈ colj, v ≠ 2 := by
    intro j colj hnj hxj v hv
    rw [List.getElem?_map] at hxj
    cases hrj : (List.range names.length)[j]? with
    | none => rw [hrj] at hxj; cases hxj
    | some j2 =>
      rw [hrj] at hxj
      obtain ⟨hjl, hje⟩ := List.getElem?_eq_some_iff.mp hrj
      rw [List.getElem_range] at hje
      rw [List.length_range] at hjl
      subst hje
      injection hxj with hxj2
      subst hxj2
      unfold extractedCol at hv
      obtain ⟨r, hr, hge⟩ := List.mem_map.mp hv
      obtain ⟨i, hi, hveq⟩ := hvals r hr
      rw [hveq] at hge
      have hjc : j < cols.length := by omega
      rw [getD_map_of_lt _ _ hjc] at hge
      have hrelj := hcols_rel j cols[j] hnj (List.getElem?_eq_getElem hjc)
      rcases getD_mem_or cols[j] i 0 with hmem | hzero
      · exact hge ▸ hrelj _ hmem
      · rw [hzero] at hge
        omega
  have hdec_rt : cleanDecode (repackTable t names.length)
      = Except.ok (names, (List.range names.length).map
          (extractedCol (df.dropCol catKey).cols.length t.rows)) := by
    have h := cleanDecode_ok_intro hci_rt hcount_rt hh_rt hw_rt hmapE_rt hrel_rt
    have hfix := relatedFix_eq_self
      (le_of_eq (by rw [List.length_map, List.length_range])) hX_rel
    rw [hnames_rt, hfix] at h
    exact h
  -- final assembly
  have htake_t : t.cols.take (df.dropCol catKey).cols.length
      = (df.dropCol catKey).cols := by
    rw [htcols]
    exact List.take_left _ _
  have hrows_rt : (repackTable t names.length).rows
      = t.rows.map (fun r =>
          r.take (df.dropCol catKey).cols.length ++
            [Cell.str (packRow names
              ((r.drop (df.dropCol catKey).cols.length).map cellInt))]) := by
    show t.rows.map (fun r =>
        r.take (t.cols.length - names.length) ++
          [Cell.str (packRow (t.cols.drop (t.cols.length - names.length))
            ((r.drop (t.cols.length - names.length)).map cellInt))]) = _
    rw [hdrop_rt, hk]
  have hdropped_rt : ((repackTable t names.length).dropCol catKey).rows
      = t.rows.map (fun r => r.take (df.dropCol catKey).cols.length) := by
    show (repackTable t names.length).rows.map (fun r =>
        (((repackTable t names.length).cols.zip r).filter
          (fun p => p.1 ≠ catKey)).map Prod.snd)
      = t.rows.map (fun r => r.take (df.dropCol catKey).cols.length)
    rw [hrtcols, hrows_rt, List.map_map]
    refine List.map_congr_left ?_
    intro r hr
    have htklen : ((df.dropCol catKey).cols).length
        = (r.take (df.dropCol catKey).cols.length).length := by
      rw [List.length_take]
      have := hrlen r hr
      omega
    show ((((df.dropCol catKey).cols ++ [catKey]).zip
        (r.take (df.dropCol catKey).cols.length ++
          [Cell.str (packRow names
            ((r.drop (df.dropCol catKey).cols.length).map cellInt))])).filter
        (fun p => p.1 ≠ catKey)).map Prod.snd
      = r.take (df.dropCol catKey).cols.length
    rw [List.zip_append htklen, List.filter_append]
    have hkeep : (((df.dropCol catKey).cols.zip
        (r.take (df.dropCol catKey).cols.length)).filter
          (fun p => p.1 ≠ catKey))
        = (df.dropCol catKey).cols.zip (r.take (df.dropCol catKey).cols.length) := by
      refine filter_eq_self_of_all ?_
      intro p hp
      have h1 : p.1 ∈ (df.dropCol catKey).cols := (List.of_mem_zip hp).1
      have h2 := hdcols_free p.1 h1
      rw [decide_eq_false_iff_not] at h2
      exact decide_eq_true h2
    have hlast : (([catKey].zip
        [Cell.str (packRow names
          ((r.drop (df.dropCol catKey).cols.length).map cellInt))]).filter
        (fun p => p.1 ≠ catKey)) = [] := by
      simp
    rw [hkeep, hlast, List.append_nil]
    exact List.map_snd_zip _ _ (le_of_eq htklen.symm)
  have hrtrowslen : (repackTable t names.length).rows.length = t.rows.length := by
    show (t.rows.map _).length = _
    rw [List.length_map]
  have hpre : preDedupRows (repackTable t names.length)
      ((List.range names.length).map
        (extractedCol (df.dropCol catKey).cols.length t.rows))
      = t.rows := by
    unfold preDedupRows
    apply List.ext_getElem?
    intro i
    rw [List.getElem?_map]
    by_cases hi : i < t.rows.length
    · have hri : t.rows[i]? = some t.rows[i] := List.getElem?_eq_getElem hi
      have hrmem : t.rows[i] ∈ t.rows := List.getElem_mem hi
      have hai : ((repackTable t names.length).dropCol catKey).rows[i]?
          = some (t.rows[i].take (df.dropCol catKey).cols.length) := by
        rw [hdropped_rt, List.getElem?_map, hri]
        rfl
      have hbi : (catValRows ((List.range names.length).map
            (extractedCol (df.dropCol catKey).cols.length t.rows))
            (repackTable t names.length).rows.length)[i]?
          = some (((List.range names.length).map
              (extractedCol (df.dropCol catKey).cols.length t.rows)).map
              (fun col => Cell.int (col.getD i 0))) := by
        unfold catValRows
        rw [List.getElem?_map, hrtrowslen, List.getElem?_range hi]
        rfl
      have hzi : ((((repackTable t names.length).dropCol catKey).rows.zip
          (catValRows ((List.range names.length).map
            (extractedCol (df.dropCol catKey).cols.length t.rows))
            (repackTable t names.length).rows.length)))[i]?
          = some (t.rows[i].take (df.dropCol catKey).cols.length,
              ((List.range names.length).map
                (extractedCol (df.dropCol catKey).cols.length t.rows)).map
                (fun col => Cell.int (col.getD i 0))) :=
        List.getElem?_zip_eq_some.mpr ⟨hai, hbi⟩
      rw [hzi, hri]
      refine congrArg some ?_
      show t.rows[i].take (df.dropCol catKey).cols.length ++
          ((List.range names.length).map
            (extractedCol (df.dropCol catKey).cols.length t.rows)).map
            (fun col => Cell.int (col.getD i 0))
        = t.rows[i]
      have hgi : ((List.range names.length).map
            (extractedCol (df.dropCol catKey).cols.length t.rows)).map
            (fun col => Cell.int (col.getD i 0))
          = t.rows[i].drop (df.dropCol catKey).cols.length := by
        obtain ⟨dr, i0, hi0, _, _, hdropeq⟩ := hparts t.rows[i] hrmem
        obtain ⟨i1, hi1, hveq⟩ := hvals t.rows[i] hrmem
        rw [hdropeq]
        rw [List.map_map]
        apply List.ext_getElem?
        intro j
        rw [List.getElem?_map, List.getElem?_map]
        by_cases hj : j < names.length
        · rw [List.getElem?_range hj]
          have hjc : j < cols.length := by omega
          rw [List.getElem?_eq_getElem hjc]
          show some (Cell.int ((extractedCol (df.dropCol catKey).cols.length
              t.rows j).getD i 0))
            = some (Cell.int (cols[j].getD i0 0))
          refine congrArg some (congrArg Cell.int ?_)
          unfold extractedCol
          rw [getD_map_of_lt _ _ hi]
          have hveq2 : valsOfRow (df.dropCol catKey).cols.length t.rows[i]
              = cols.map (fun col => col.getD i0 0) := by
            unfold valsOfRow
            rw [hdropeq, List.map_map]
            rfl
          rw [hveq2, getD_map_of_lt _ _ hjc]
        · rw [List.getElem?_eq_none (by rw [List.length_range]; omega),
            List.getElem?_eq_none (by omega)]
          rfl
      rw [hgi]
      exact List.take_append_drop _ _
    · have hzlen : (((repackTable t names.length).dropCol catKey).rows.zip
          (catValRows ((List.range names.length).map
            (extractedCol (df.dropCol catKey).cols.length t.rows))
            (repackTable t names.length).rows.length)).length ≤ i := by
        rw [List.length_zip, hdropped_rt, List.length_map]
        have hc : (catValRows ((List.range names.length).map
            (extractedCol (df.dropCol catKey).cols.length t.rows))
            (repackTable t names.length).rows.length).length
            = t.rows.length := by
          unfold catValRows
          rw [List.length_map, List.length_range, hrtrowslen]
        rw [hc, min_self]
        omega
      rw [List.getElem?_eq_none hzlen, List.getElem?_eq_none (by omega)]
      rfl
  unfold cleanData
  rw [hdec_rt]
  refine congrArg Except.ok ?_
  have hA : ((repackTable t names.length).dropCol catKey).cols ++ names
      = t.cols := by
    show (repackTable t names.length).cols.filter (fun c => c ≠ catKey) ++ names
      = t.cols
    rw [hrtcols, List.filter_append]
    have h1 : (df.dropCol catKey).cols.filter (fun c => c ≠ catKey)
        = (df.dropCol catKey).cols := by
      refine filter_eq_self_of_all ?_
      intro a ha
      have h2 := hdcols_free a ha
      rw [decide_eq_false_iff_not] at h2
      exact decide_eq_true h2
    have h2 : ([catKey] : List Chars).filter (fun c => c ≠ catKey) = [] := by
      simp
    rw [h1, h2, List.append_nil, htcols]
  have hB : dedupFirst (preDedupRows (repackTable t names.length)
      ((List.range names.length).map
        (extractedCol (df.dropCol catKey).cols.length t.rows)))
      = t.rows := by
    rw [hpre]
    refine dedupFirst_eq_self_of_nodup ?_
    rw [htrows]
    exact dedupFirst_nodup _
  rw [hA, hB]

/-- Witness for C7: the idempotence theorem applied to the concrete C2
scenario table, whose hypotheses hold by computation. -/
theorem c7_transformer_idempotent_witness :
    c2Merged.WF ∧
    cleanDecode c2Merged
      = Except.ok (["related".toList, "request".toList],
          ([[1, 1], [0, 1]] : List (List Int))) ∧
    cleanData c2Merged = Except.ok c2Cleaned ∧
    cleanData (repackTable c2Cleaned
        (["related".toList, "request".toList] : List Chars).length)
      = Except.ok c2Cleaned :=
  ⟨by decide, by decide, by decide,
    c7_transformer_idempotent c2Merged
      ["related".toList, "request".toList] [[1, 1], [0, 1]] c2Cleaned
      (by decide) (by decide) (by decide)⟩
